import Mathlib

/-!
Verification of the mini-os kernel (RISC-V SV39 educational kernel).

This file shallowly embeds, in Lean, the parts of the kernel that the
properties below are about, and proves or refutes each property.

Conventions of the embedding:
* `usize` values are modelled as `Nat`, with explicit `% 2 ^ w` masks
  exactly where the source masks (the `From<usize>` conversions in
  `mm/address.rs`).
* Physical memory holding page-table nodes is modelled as a total function
  `Nat → Nat → Nat`: `mem f i` is the 64-bit PTE stored at index `i` of the
  frame whose PPN is `f`.  The frame allocator zeroes every frame it hands
  out (`FrameTracker::new` in `mm/frame_allocator.rs`), so a frame that has
  never been written reads as zero; the model keeps a `fresh` counter and
  the invariant that frames at or above `fresh` are all zero.
* Code that can panic is modelled with `Option`: `none` is a panic.
* Loops are modelled either structurally or with explicit fuel; fuel
  exhaustion is `none`.
-/

namespace MiniOS

/-! ## Addresses and page-table entries (`mm/address.rs`, `mm/page_table.rs`) -/

/-- `PAGE_SIZE` from `config.rs`. -/
def PAGE_SIZE : Nat := 4096

/-- `USER_STACK_SIZE` from `config.rs` (two pages). -/
def USER_STACK_SIZE : Nat := 4096 * 2

/-- `TRAMPOLINE_ADDR = usize::MAX - PAGE_SIZE + 1` from `config.rs`. -/
def TRAMPOLINE_ADDR : Nat := 2 ^ 64 - PAGE_SIZE

/-- `TRAP_CONTEXT_ADDR = TRAMPOLINE_ADDR - PAGE_SIZE` from `config.rs`. -/
def TRAP_CONTEXT_ADDR : Nat := TRAMPOLINE_ADDR - PAGE_SIZE

/-- `From<usize> for VirtAddr`: mask to the low 39 bits (`mm/address.rs`). -/
def virtAddrFrom (v : Nat) : Nat := v % 2 ^ 39

/-- `From<usize> for PhysPageNum`: mask to the low 44 bits (`mm/address.rs`). -/
def physPageNumFrom (v : Nat) : Nat := v % 2 ^ 44

/-- `VirtAddr::floor` (`mm/address.rs`): page number containing the address. -/
def vaFloor (va : Nat) : Nat := va / PAGE_SIZE

/-- `VirtAddr::ceil` (`mm/address.rs`). -/
def vaCeil (va : Nat) : Nat := (va + PAGE_SIZE - 1) / PAGE_SIZE

/-- `VirtPageNum::get_sv39_indexes` (`mm/address.rs` lines 139-147), written
exactly in the source's order: slot 0 is `(bits >> 0) & 0x1ff`, slot 1 is
`(bits >> 9) & 0x1ff`, slot 2 is `(bits >> 18) & 0x1ff`. -/
def get_sv39_indexes (vpn : Nat) : List Nat :=
  [vpn >>> 0 &&& 511, vpn >>> 9 &&& 511, vpn >>> 18 &&& 511]

/-- Index consumed by the page-table walk at level `l` (the walk in
`PageTable::find_pte_mut` / `find_pte_create_mut` iterates
`get_sv39_indexes` in order, so level `l` of the descent uses slot `l`). -/
def walkIndex (vpn l : Nat) : Nat := (get_sv39_indexes vpn).getD l 0

theorem walkIndex0_eq (vpn : Nat) : walkIndex vpn 0 = vpn % 512 := by
  simp [walkIndex, get_sv39_indexes]
  exact Nat.and_pow_two_sub_one_eq_mod vpn 9

theorem walkIndex1_eq (vpn : Nat) : walkIndex vpn 1 = vpn / 512 % 512 := by
  simp [walkIndex, get_sv39_indexes]
  rw [Nat.shiftRight_eq_div_pow]
  exact Nat.and_pow_two_sub_one_eq_mod _ 9

theorem walkIndex2_eq (vpn : Nat) : walkIndex vpn 2 = vpn / 512 ^ 2 % 512 := by
  simp [walkIndex, get_sv39_indexes]
  rw [Nat.shiftRight_eq_div_pow]
  norm_num
  exact Nat.and_pow_two_sub_one_eq_mod _ 9

/-- `PageTableEntry::new` (`mm/page_table.rs`): `ppn.0 << 10 | flags.bits()`.
Flags are a `u8`, so for `fl < 1024` the `or` is a plain addition. -/
def mkPTE (ppn fl : Nat) : Nat := ppn <<< 10 ||| fl

/-- `PageTableEntry::ppn`: `bits >> 10 & ((1 << 44) - 1)`. -/
def ptePpn (bits : Nat) : Nat := bits >>> 10 &&& (2 ^ 44 - 1)

/-- `PageTableEntry::flags`: `bits as u8` (the low 8 bits). -/
def pteFlags (bits : Nat) : Nat := bits % 256

/-- `PageTableEntry::is_valid`: flag bit `V = 1 << 0`. -/
def pteValid (bits : Nat) : Bool := bits % 2 == 1

/-- `PTEFlags::V` -/
def flagV : Nat := 1
/-- `PTEFlags::R` -/
def flagR : Nat := 2
/-- `PTEFlags::W` -/
def flagW : Nat := 4
/-- `PTEFlags::X` -/
def flagX : Nat := 8
/-- `PTEFlags::U` / `MapPermission::U` -/
def flagU : Nat := 16

theorem mkPTE_eq (ppn fl : Nat) (h : fl < 1024) : mkPTE ppn fl = ppn * 1024 + fl := by
  have h1 : ppn <<< 10 = 2 ^ 10 * ppn := by rw [Nat.shiftLeft_eq]; ring
  rw [mkPTE, h1, ← Nat.mul_add_lt_is_or (lt_of_lt_of_le h (by norm_num) : fl < 2 ^ 10) ppn]
  ring

theorem ptePpn_eq (bits : Nat) : ptePpn bits = bits / 1024 % 2 ^ 44 := by
  rw [ptePpn, Nat.shiftRight_eq_div_pow]
  norm_num
  exact Nat.and_pow_two_sub_one_eq_mod _ 44

theorem ptePpn_mkPTE (p fl : Nat) (hf : fl < 1024) (hp : p < 2 ^ 44) :
    ptePpn (mkPTE p fl) = p := by
  rw [ptePpn_eq, mkPTE_eq p fl hf]
  have h44 : (2 : Nat) ^ 44 = 17592186044416 := by norm_num
  rw [h44]
  rw [h44] at hp
  omega

theorem pteFlags_mkPTE (p fl : Nat) (hf : fl < 256) :
    pteFlags (mkPTE p fl) = fl := by
  rw [pteFlags, mkPTE_eq p fl (by omega)]
  omega

theorem or_one_lt (fl : Nat) (h : fl < 256) : fl ||| 1 < 256 := by
  have : (256 : Nat) = 2 ^ 8 := by norm_num
  rw [this] at h ⊢
  exact Nat.or_lt_two_pow h (by norm_num)

theorem pteValid_mkPTE_or_one (p fl : Nat) (hf : fl < 256) :
    pteValid (mkPTE p (fl ||| 1)) = true := by
  have h1 : fl ||| 1 < 1024 := lt_of_lt_of_le (or_one_lt fl hf) (by norm_num)
  rw [pteValid, mkPTE_eq p _ h1]
  have : (p * 1024 + (fl ||| 1)) % 2 = (fl ||| 1) % 2 := by omega
  rw [this]
  simp [Nat.or_mod_two_eq_one]

theorem pteValid_zero : pteValid 0 = false := rfl

theorem pteValid_mkPTE_one (p : Nat) : pteValid (mkPTE p 1) = true := by
  have := pteValid_mkPTE_or_one p 0 (by norm_num)
  simpa using this

theorem ptePpn_mkPTE_one (p : Nat) (hp : p < 2 ^ 44) : ptePpn (mkPTE p 1) = p :=
  ptePpn_mkPTE p 1 (by norm_num) hp

/-! ## The page table (`mm/page_table.rs`)

State of the kernel's physical memory as seen through page-table nodes,
together with the model of the global frame allocator feeding
`PageTable::new` / `find_pte_create_mut` / `MapArea::map_one`: allocated
frames are `fresh, fresh+1, ...` — pairwise distinct, distinct from every
live frame, and zero-filled on allocation (`FrameTracker::new`). -/

structure PT where
  /-- `PageTable::root_ppn` -/
  root_ppn : Nat
  /-- next frame the allocator hands out (model of `frame_alloc`) -/
  fresh : Nat
  /-- `mem f i` = PTE bits at index `i` of the page-table node in frame `f`
  (`PhysPageNum::get_pte_array_mut`) -/
  mem : Nat → Nat → Nat

/-- Write one PTE slot (`*pte = ...` through `get_pte_array_mut`). -/
def memWrite (m : Nat → Nat → Nat) (f i v : Nat) : Nat → Nat → Nat :=
  fun f' i' => if f' = f ∧ i' = i then v else m f' i'

/-- `PageTable::new`: one freshly allocated (zeroed) root frame. `r` is the
frame the allocator returns. -/
def ptNew (r : Nat) : PT :=
  { root_ppn := r, fresh := r + 1, mem := fun _ _ => 0 }

/-- `PageTable::find_pte_mut` (`mm/page_table.rs` lines 138-158): walk the
three levels using `get_sv39_indexes` in order; at levels 0 and 1 fail when
the entry is invalid, at level 2 return the location of the leaf slot
(frame, index) without checking its validity. -/
def find_pte_loc (pt : PT) (vpn : Nat) : Option (Nat × Nat) :=
  let i0 := walkIndex vpn 0
  let i1 := walkIndex vpn 1
  let i2 := walkIndex vpn 2
  let e0 := pt.mem pt.root_ppn i0
  if pteValid e0 then
    let t1 := ptePpn e0
    let e1 := pt.mem t1 i1
    if pteValid e1 then
      let t2 := ptePpn e1
      some (t2, i2)
    else none
  else none

/-- `PageTable::translate` (`mm/page_table.rs` lines 52-54): copy of the PTE
at the leaf slot, when `find_pte_mut` finds one. -/
def translate (pt : PT) (vpn : Nat) : Option Nat :=
  match find_pte_loc pt vpn with
  | some (f, i) => some (pt.mem f i)
  | none => none

/-- One interior step of `find_pte_create_mut`: if the entry at index `i`
of table node `f` is invalid, allocate a fresh (zeroed) frame and write a
non-leaf PTE with only `V = 1` (`mm/page_table.rs` lines 176-189). -/
def createStep (pt : PT) (f i : Nat) : PT :=
  if pteValid (pt.mem f i) then pt
  else { pt with mem := memWrite pt.mem f i (mkPTE pt.fresh flagV),
                 fresh := pt.fresh + 1 }

/-- `PageTable::find_pte_create_mut` (`mm/page_table.rs` lines 163-195):
like the walk above but allocates a fresh zeroed frame and writes a
`V`-only entry whenever a level-0/1 entry is invalid.  Returns the updated
table and the leaf slot location. -/
def find_pte_create (pt : PT) (vpn : Nat) : PT × Nat × Nat :=
  let pt1 := createStep pt pt.root_ppn (walkIndex vpn 0)
  let t1 := ptePpn (pt1.mem pt.root_ppn (walkIndex vpn 0))
  let pt2 := createStep pt1 t1 (walkIndex vpn 1)
  let t2 := ptePpn (pt2.mem t1 (walkIndex vpn 1))
  (pt2, t2, walkIndex vpn 2)

/-- `PageTable::map` (`mm/page_table.rs` lines 112-118): walk-or-create to
the leaf slot, assert it is invalid (panic = `none` otherwise), and write
`PTE(ppn, flags | V)`. -/
def ptMap (pt : PT) (vpn ppn fl : Nat) : Option PT :=
  let (pt1, f, i) := find_pte_create pt vpn
  if pteValid (pt1.mem f i) then none
  else some { pt1 with mem := memWrite pt1.mem f i (mkPTE ppn (fl ||| flagV)) }

/-- `PageTable::unmap` (`mm/page_table.rs` lines 127-133): walk to the leaf
slot (panic when an interior entry is missing), assert it is valid, zero it. -/
def ptUnmap (pt : PT) (vpn : Nat) : Option PT :=
  match find_pte_loc pt vpn with
  | none => none
  | some (f, i) =>
    if pteValid (pt.mem f i) then
      some { pt with mem := memWrite pt.mem f i 0 }
    else none

/-- The observable mapping: the leaf PTE when the walk reaches a slot whose
entry is valid (`none` both when an interior entry is missing and when the
leaf slot holds an invalid entry). -/
def validTranslate (pt : PT) (vpn : Nat) : Option Nat :=
  match translate pt vpn with
  | some e => if pteValid e then some e else none
  | none => none

theorem memWrite_eq (m : Nat → Nat → Nat) (f i v : Nat) : memWrite m f i v f i = v := by
  simp [memWrite]

theorem memWrite_ne_frame (m : Nat → Nat → Nat) (f i v f' i' : Nat) (h : f' ≠ f) :
    memWrite m f i v f' i' = m f' i' := by
  simp [memWrite, h]

theorem memWrite_ne_idx (m : Nat → Nat → Nat) (f i v f' i' : Nat) (h : i' ≠ i) :
    memWrite m f i v f' i' = m f' i' := by
  simp [memWrite, h]

/-- Invariant tying a `PT` state to the (existentially quantified) lists of
level-1 and level-2 page-table node frames it owns — the model counterpart
of the `frames: Vec<FrameTracker>` field together with what
`find_pte_create_mut` writes: every valid entry of the root node points at
a distinct owned level-1 node, every valid entry of a level-1 node points
at a distinct owned level-2 node, all owned frames are pairwise distinct
and below the allocation cursor, and frames never allocated are zero. -/
structure PTInv (r F : Nat) (m : Nat → Nat → Nat) (T1 T2 : List Nat) : Prop where
  root_lt : r < F
  t1_lt : ∀ f ∈ T1, f < F
  t2_lt : ∀ f ∈ T2, f < F
  disj12 : ∀ f ∈ T1, f ∉ T2
  root_nt1 : r ∉ T1
  root_nt2 : r ∉ T2
  unalloc : ∀ f, F ≤ f → ∀ i, m f i = 0
  root_entries : ∀ i, pteValid (m r i) = true → ∃ f ∈ T1, m r i = mkPTE f 1
  t1_entries : ∀ t ∈ T1, ∀ i, pteValid (m t i) = true →
    ∃ f ∈ T2, m t i = mkPTE f 1
  root_inj : ∀ i j, pteValid (m r i) = true → pteValid (m r j) = true →
    ptePpn (m r i) = ptePpn (m r j) → i = j
  t1_inj : ∀ t ∈ T1, ∀ t' ∈ T1, ∀ i j, pteValid (m t i) = true →
    pteValid (m t' j) = true →
    ptePpn (m t i) = ptePpn (m t' j) → t = t' ∧ i = j

theorem ptNew_inv (r : Nat) : PTInv r (r + 1) (fun _ _ => 0) [] [] := by
  refine ⟨?_, ?_, ?_, ?_, ?_, ?_, ?_, ?_, ?_, ?_, ?_⟩ <;>
    simp [pteValid]

theorem validTranslate_ptNew (r vpn : Nat) : validTranslate (ptNew r) vpn = none := by
  simp [validTranslate, translate, find_pte_loc, ptNew, pteValid]

/-- Two VPNs collide in the page table exactly when their three walk
indices agree, i.e. when they agree modulo `2 ^ 27`. -/
def sameIdx (w vpn : Nat) : Prop :=
  walkIndex w 0 = walkIndex vpn 0 ∧ walkIndex w 1 = walkIndex vpn 1 ∧
    walkIndex w 2 = walkIndex vpn 2

theorem sameIdx_iff (w vpn : Nat) : sameIdx w vpn ↔ w % 2 ^ 27 = vpn % 2 ^ 27 := by
  rw [sameIdx, walkIndex0_eq, walkIndex1_eq, walkIndex2_eq,
    walkIndex0_eq, walkIndex1_eq, walkIndex2_eq]
  norm_num
  omega

theorem sameIdx_refl (vpn : Nat) : sameIdx vpn vpn := ⟨rfl, rfl, rfl⟩

theorem sameIdx_of_lt (w vpn : Nat) (hw : w < 2 ^ 27) (hv : vpn < 2 ^ 27)
    (h : sameIdx w vpn) : w = vpn := by
  rw [sameIdx_iff] at h
  rwa [Nat.mod_eq_of_lt hw, Nat.mod_eq_of_lt hv] at h

/-- Unfolded form of `validTranslate`: the three reads of the walk. -/
theorem validTranslate_eq (pt : PT) (vpn : Nat) :
    validTranslate pt vpn =
      (if pteValid (pt.mem pt.root_ppn (walkIndex vpn 0)) then
        (if pteValid (pt.mem (ptePpn (pt.mem pt.root_ppn (walkIndex vpn 0)))
            (walkIndex vpn 1)) then
          (if pteValid (pt.mem (ptePpn (pt.mem (ptePpn (pt.mem pt.root_ppn
              (walkIndex vpn 0))) (walkIndex vpn 1))) (walkIndex vpn 2)) then
            some (pt.mem (ptePpn (pt.mem (ptePpn (pt.mem pt.root_ppn
              (walkIndex vpn 0))) (walkIndex vpn 1))) (walkIndex vpn 2))
          else none)
        else none)
      else none) := by
  unfold validTranslate translate find_pte_loc
  by_cases h0 : pteValid (pt.mem pt.root_ppn (walkIndex vpn 0)) <;> simp [h0]
  by_cases h1 : pteValid (pt.mem (ptePpn (pt.mem pt.root_ppn (walkIndex vpn 0)))
      (walkIndex vpn 1)) <;> simp [h1]

theorem translate_eq (pt : PT) (vpn : Nat) :
    translate pt vpn =
      (if pteValid (pt.mem pt.root_ppn (walkIndex vpn 0)) then
        (if pteValid (pt.mem (ptePpn (pt.mem pt.root_ppn (walkIndex vpn 0)))
            (walkIndex vpn 1)) then
          some (pt.mem (ptePpn (pt.mem (ptePpn (pt.mem pt.root_ppn
            (walkIndex vpn 0))) (walkIndex vpn 1))) (walkIndex vpn 2))
        else none)
      else none) := by
  unfold translate find_pte_loc
  by_cases h0 : pteValid (pt.mem pt.root_ppn (walkIndex vpn 0)) <;> simp [h0]
  by_cases h1 : pteValid (pt.mem (ptePpn (pt.mem pt.root_ppn (walkIndex vpn 0)))
      (walkIndex vpn 1)) <;> simp [h1]

/-- Under the invariant, the walk either stops at an invalid interior entry
or reaches the leaf slot through owned level-1/level-2 nodes. -/
theorem walk_elim {pt : PT} {T1 T2 : List Nat}
    (inv : PTInv pt.root_ppn pt.fresh pt.mem T1 T2)
    (hb : pt.fresh ≤ 2 ^ 44) (vpn : Nat) :
    (pteValid (pt.mem pt.root_ppn (walkIndex vpn 0)) = false ∧
      find_pte_loc pt vpn = none) ∨
    (∃ f1 ∈ T1, pt.mem pt.root_ppn (walkIndex vpn 0) = mkPTE f1 1 ∧
      ((pteValid (pt.mem f1 (walkIndex vpn 1)) = false ∧
         find_pte_loc pt vpn = none) ∨
       (∃ f2 ∈ T2, pt.mem f1 (walkIndex vpn 1) = mkPTE f2 1 ∧
         find_pte_loc pt vpn = some (f2, walkIndex vpn 2)))) := by
  by_cases h0 : pteValid (pt.mem pt.root_ppn (walkIndex vpn 0))
  · right
    obtain ⟨f1, hf1, he0⟩ := inv.root_entries _ h0
    have hp1 : ptePpn (pt.mem pt.root_ppn (walkIndex vpn 0)) = f1 := by
      rw [he0]; exact ptePpn_mkPTE_one f1 (lt_of_lt_of_le (inv.t1_lt f1 hf1) hb)
    refine ⟨f1, hf1, he0, ?_⟩
    by_cases h1 : pteValid (pt.mem f1 (walkIndex vpn 1))
    · right
      obtain ⟨f2, hf2, he1⟩ := inv.t1_entries f1 hf1 _ h1
      have hp2 : ptePpn (pt.mem f1 (walkIndex vpn 1)) = f2 := by
        rw [he1]; exact ptePpn_mkPTE_one f2 (lt_of_lt_of_le (inv.t2_lt f2 hf2) hb)
      refine ⟨f2, hf2, he1, ?_⟩
      unfold find_pte_loc
      simp only [h0, if_true, hp1, h1, hp2]
    · left
      refine ⟨by simpa using h1, ?_⟩
      unfold find_pte_loc
      simp only [h0, if_true, hp1]
      simp [h1]
  · left
    refine ⟨by simpa using h0, ?_⟩
    unfold find_pte_loc
    simp [h0]

/-- Allocating a fresh level-2 node under an owned level-1 node preserves
the invariant, with the fresh frame appended to the level-2 list. -/
theorem invB {r F : Nat} {m : Nat → Nat → Nat} {T1 T2 : List Nat}
    (inv : PTInv r F m T1 T2) (hb : F + 1 ≤ 2 ^ 44) {f1 i1v : Nat}
    (hf1 : f1 ∈ T1) :
    PTInv r (F + 1) (memWrite m f1 i1v (mkPTE F 1)) T1 (T2 ++ [F]) := by
  have hrne : r ≠ f1 := fun h => inv.root_nt1 (h ▸ hf1)
  have hf1lt : f1 < F := inv.t1_lt f1 hf1
  have hread : ∀ f' i', f' ≠ f1 → memWrite m f1 i1v (mkPTE F 1) f' i' = m f' i' :=
    fun _ _ h => memWrite_ne_frame _ _ _ _ _ _ h
  refine ⟨?_, ?_, ?_, ?_, ?_, ?_, ?_, ?_, ?_, ?_, ?_⟩
  · exact Nat.lt_succ_of_lt inv.root_lt
  · exact fun f hf => Nat.lt_succ_of_lt (inv.t1_lt f hf)
  · intro f hf
    rcases List.mem_append.mp hf with h | h
    · exact Nat.lt_succ_of_lt (inv.t2_lt f h)
    · simp at h; omega
  · intro f hf
    rw [List.mem_append]
    push_neg
    have := inv.t1_lt f hf
    refine ⟨inv.disj12 f hf, by simp; omega⟩
  · exact inv.root_nt1
  · intro h
    rcases List.mem_append.mp h with h | h
    · exact inv.root_nt2 h
    · simp at h; exact absurd h (Nat.ne_of_lt inv.root_lt)
  · intro f hf i
    rw [hread f i (by omega)]
    exact inv.unalloc f (by omega) i
  · intro i h
    rw [hread r i hrne] at h ⊢
    exact inv.root_entries i h
  · intro t ht i h
    by_cases hc : t = f1 ∧ i = i1v
    · obtain ⟨rfl, rfl⟩ := hc
      rw [memWrite_eq]
      exact ⟨F, List.mem_append.mpr (Or.inr (List.mem_singleton.mpr rfl)), rfl⟩
    · rw [memWrite] at h ⊢
      simp only [hc, if_false] at h ⊢
      obtain ⟨f, hf, he⟩ := inv.t1_entries t ht i h
      exact ⟨f, List.mem_append.mpr (Or.inl hf), he⟩
  · intro i j hi hj hij
    rw [hread r i hrne] at hi
    rw [hread r j hrne] at hj
    rw [hread r i hrne, hread r j hrne] at hij
    exact inv.root_inj i j hi hj hij
  · intro t ht t' ht' i j hi hj hij
    have keyv : ∀ s ∈ T1, ∀ k, pteValid (memWrite m f1 i1v (mkPTE F 1) s k) = true →
        (s = f1 ∧ k = i1v ∧ ptePpn (memWrite m f1 i1v (mkPTE F 1) s k) = F) ∨
        (pteValid (m s k) = true ∧
          memWrite m f1 i1v (mkPTE F 1) s k = m s k ∧ ptePpn (m s k) < F) := by
      intro s hs k hv
      by_cases hc : s = f1 ∧ k = i1v
      · obtain ⟨rfl, rfl⟩ := hc
        rw [memWrite_eq] at hv ⊢
        exact Or.inl ⟨rfl, rfl, ptePpn_mkPTE_one _ (by omega)⟩
      · rw [memWrite] at hv ⊢
        simp only [hc, if_false] at hv ⊢
        refine Or.inr ⟨hv, trivial, ?_⟩
        obtain ⟨f, hf, he⟩ := inv.t1_entries s hs k hv
        rw [he, ptePpn_mkPTE_one f (by have := inv.t2_lt f hf; omega)]
        exact inv.t2_lt f hf
    rcases keyv t ht i hi with ⟨rfl, rfl, hp⟩ | ⟨hv, he, hlt⟩ <;>
      rcases keyv t' ht' j hj with ⟨rfl, rfl, hp'⟩ | ⟨hv', he', hlt'⟩
    · exact ⟨rfl, rfl⟩
    · rw [hp, he'] at hij; omega
    · rw [he, hp'] at hij; omega
    · rw [he, he'] at hij
      exact inv.t1_inj t ht t' ht' i j hv hv' hij

/-- Allocating a fresh level-1 node (and then a fresh level-2 node under
it) preserves the invariant, with both fresh frames appended. -/
theorem invC {r F : Nat} {m : Nat → Nat → Nat} {T1 T2 : List Nat}
    (inv : PTInv r F m T1 T2) (hb : F + 2 ≤ 2 ^ 44) (i0v i1v : Nat) :
    PTInv r (F + 2)
      (memWrite (memWrite m r i0v (mkPTE F 1)) F i1v (mkPTE (F + 1) 1))
      (T1 ++ [F]) (T2 ++ [F + 1]) := by
  have hrF : r ≠ F := Nat.ne_of_lt inv.root_lt
  have hm'r : ∀ k, memWrite (memWrite m r i0v (mkPTE F 1)) F i1v (mkPTE (F + 1) 1) r k =
      memWrite m r i0v (mkPTE F 1) r k :=
    fun k => memWrite_ne_frame _ _ _ _ _ _ hrF
  have hm'F : ∀ k, k ≠ i1v →
      memWrite (memWrite m r i0v (mkPTE F 1)) F i1v (mkPTE (F + 1) 1) F k = m F k := by
    intro k hk
    rw [memWrite_ne_idx _ _ _ _ _ _ hk, memWrite_ne_frame _ _ _ _ _ _ (Ne.symm hrF)]
  have hm'other : ∀ f k, f ≠ r → f ≠ F →
      memWrite (memWrite m r i0v (mkPTE F 1)) F i1v (mkPTE (F + 1) 1) f k = m f k := by
    intro f k h1 h2
    rw [memWrite_ne_frame _ _ _ _ _ _ h2, memWrite_ne_frame _ _ _ _ _ _ h1]
  have hrlt := inv.root_lt
  refine ⟨?_, ?_, ?_, ?_, ?_, ?_, ?_, ?_, ?_, ?_, ?_⟩
  · omega
  · intro f hf
    rcases List.mem_append.mp hf with h | h
    · have := inv.t1_lt f h; omega
    · simp at h; omega
  · intro f hf
    rcases List.mem_append.mp hf with h | h
    · have := inv.t2_lt f h; omega
    · simp at h; omega
  · intro f hf
    rw [List.mem_append]
    push_neg
    rcases List.mem_append.mp hf with h | h
    · have := inv.t1_lt f h
      exact ⟨inv.disj12 f h, by simp; omega⟩
    · simp at h
      constructor
      · intro hmem
        rw [h] at hmem
        have := inv.t2_lt F hmem
        omega
      · simp [h]
  · intro h
    rcases List.mem_append.mp h with h | h
    · exact inv.root_nt1 h
    · simp at h; exact hrF h
  · intro h
    rcases List.mem_append.mp h with h | h
    · exact inv.root_nt2 h
    · simp at h; omega
  · intro f hf i
    rw [hm'other f i (by omega) (by omega)]
    exact inv.unalloc f (by omega) i
  · intro i h
    rw [hm'r i] at h ⊢
    by_cases hc : i = i0v
    · subst hc
      rw [memWrite_eq] at h ⊢
      exact ⟨F, List.mem_append.mpr (Or.inr (List.mem_singleton.mpr rfl)), rfl⟩
    · rw [memWrite_ne_idx _ _ _ _ _ _ hc] at h ⊢
      obtain ⟨f, hf, he⟩ := inv.root_entries i h
      exact ⟨f, List.mem_append.mpr (Or.inl hf), he⟩
  · intro t ht i h
    rcases List.mem_append.mp ht with htm | htm
    · have h1 : t ≠ r := fun hh => inv.root_nt1 (hh ▸ htm)
      have h2 : t ≠ F := Nat.ne_of_lt (inv.t1_lt t htm)
      rw [hm'other t i h1 h2] at h ⊢
      obtain ⟨f, hf, he⟩ := inv.t1_entries t htm i h
      exact ⟨f, List.mem_append.mpr (Or.inl hf), he⟩
    · simp at htm
      by_cases hc : i = i1v
      · rw [htm, hc, memWrite_eq] at h ⊢
        exact ⟨F + 1, List.mem_append.mpr (Or.inr (List.mem_singleton.mpr rfl)), rfl⟩
      · rw [htm, hm'F i hc, inv.unalloc F (le_refl F) i] at h
        simp [pteValid] at h
  · intro i j hi hj hij
    rw [hm'r i] at hi hij
    rw [hm'r j] at hj hij
    by_cases hci : i = i0v <;> by_cases hcj : j = i0v
    · omega
    · subst hci
      rw [memWrite_eq] at hij
      rw [memWrite_ne_idx _ _ _ _ _ _ hcj] at hij hj
      obtain ⟨f, hf, he⟩ := inv.root_entries j hj
      rw [he, ptePpn_mkPTE_one f (by have := inv.t1_lt f hf; omega),
        ptePpn_mkPTE_one F (by omega)] at hij
      have := inv.t1_lt f hf
      omega
    · subst hcj
      rw [memWrite_eq] at hij
      rw [memWrite_ne_idx _ _ _ _ _ _ hci] at hij hi
      obtain ⟨f, hf, he⟩ := inv.root_entries i hi
      rw [he, ptePpn_mkPTE_one f (by have := inv.t1_lt f hf; omega),
        ptePpn_mkPTE_one F (by omega)] at hij
      have := inv.t1_lt f hf
      omega
    · rw [memWrite_ne_idx _ _ _ _ _ _ hci] at hi hij
      rw [memWrite_ne_idx _ _ _ _ _ _ hcj] at hj hij
      exact inv.root_inj i j hi hj hij
  · intro t ht t' ht' i j hi hj hij
    have keyv : ∀ s, s ∈ T1 ++ [F] → ∀ k,
        pteValid (memWrite (memWrite m r i0v (mkPTE F 1)) F i1v (mkPTE (F + 1) 1) s k) = true →
        (s = F ∧ k = i1v ∧
          ptePpn (memWrite (memWrite m r i0v (mkPTE F 1)) F i1v (mkPTE (F + 1) 1) s k) = F + 1) ∨
        (s ∈ T1 ∧ pteValid (m s k) = true ∧
          memWrite (memWrite m r i0v (mkPTE F 1)) F i1v (mkPTE (F + 1) 1) s k = m s k ∧
          ptePpn (m s k) < F) := by
      intro s hs k hv
      rcases List.mem_append.mp hs with hsm | hsm
      · have h1 : s ≠ r := fun hh => inv.root_nt1 (hh ▸ hsm)
        have h2 : s ≠ F := Nat.ne_of_lt (inv.t1_lt s hsm)
        rw [hm'other s k h1 h2] at hv ⊢
        refine Or.inr ⟨hsm, hv, rfl, ?_⟩
        obtain ⟨f, hf, he⟩ := inv.t1_entries s hsm k hv
        rw [he, ptePpn_mkPTE_one f (by have := inv.t2_lt f hf; omega)]
        exact inv.t2_lt f hf
      · simp at hsm
        by_cases hc : k = i1v
        · rw [hsm, hc, memWrite_eq] at hv ⊢
          exact Or.inl ⟨rfl, rfl, ptePpn_mkPTE_one _ (by omega)⟩
        · rw [hsm, hm'F k hc, inv.unalloc F (le_refl F) k] at hv
          simp [pteValid] at hv
    rcases keyv t ht i hi with ⟨rfl, rfl, hp⟩ | ⟨htm, hv, he, hlt⟩ <;>
      rcases keyv t' ht' j hj with ⟨rfl, rfl, hp'⟩ | ⟨htm', hv', he', hlt'⟩
    · exact ⟨rfl, rfl⟩
    · rw [hp, he'] at hij; omega
    · rw [he, hp'] at hij; omega
    · rw [he, he'] at hij
      exact inv.t1_inj t htm t' htm' i j hv hv' hij

/-- The observable mapping as a function of the root and the memory alone
(the allocation cursor plays no part in a walk). -/
def vt (r : Nat) (m : Nat → Nat → Nat) (vpn : Nat) : Option Nat :=
  if pteValid (m r (walkIndex vpn 0)) then
    if pteValid (m (ptePpn (m r (walkIndex vpn 0))) (walkIndex vpn 1)) then
      if pteValid (m (ptePpn (m (ptePpn (m r (walkIndex vpn 0)))
          (walkIndex vpn 1))) (walkIndex vpn 2)) then
        some (m (ptePpn (m (ptePpn (m r (walkIndex vpn 0)))
          (walkIndex vpn 1))) (walkIndex vpn 2))
      else none
    else none
  else none

theorem validTranslate_vt (pt : PT) (vpn : Nat) :
    validTranslate pt vpn = vt pt.root_ppn pt.mem vpn :=
  validTranslate_eq pt vpn

/-- A leaf write through an owned walk does not change the observable
mapping of any VPN with a different index triple. -/
theorem vt_leafWrite_other {r F : Nat} {m : Nat → Nat → Nat} {T1 T2 : List Nat}
    (inv : PTInv r F m T1 T2) (hb : F ≤ 2 ^ 44) {vpn f1 f2 : Nat}
    (hf1 : f1 ∈ T1) (hf2 : f2 ∈ T2)
    (he0 : m r (walkIndex vpn 0) = mkPTE f1 1)
    (he1 : m f1 (walkIndex vpn 1) = mkPTE f2 1) (v : Nat)
    (w : Nat) (hw : ¬ sameIdx w vpn) :
    vt r (memWrite m f2 (walkIndex vpn 2) v) w = vt r m w := by
  have hrf2 : r ≠ f2 := fun h => inv.root_nt2 (h ▸ hf2)
  have hread0 : memWrite m f2 (walkIndex vpn 2) v r (walkIndex w 0) =
      m r (walkIndex w 0) := memWrite_ne_frame _ _ _ _ _ _ hrf2
  unfold vt
  rw [hread0]
  by_cases h0 : pteValid (m r (walkIndex w 0))
  · simp only [h0, if_true]
    obtain ⟨f1w, hf1w, he0w⟩ := inv.root_entries _ h0
    have hp1w : ptePpn (m r (walkIndex w 0)) = f1w := by
      rw [he0w]; exact ptePpn_mkPTE_one f1w (lt_of_lt_of_le (inv.t1_lt f1w hf1w) hb)
    have hread1 : memWrite m f2 (walkIndex vpn 2) v f1w (walkIndex w 1) =
        m f1w (walkIndex w 1) :=
      memWrite_ne_frame _ _ _ _ _ _ (fun h => inv.disj12 f1w hf1w (h ▸ hf2))
    rw [hp1w, hread1]
    by_cases h1 : pteValid (m f1w (walkIndex w 1))
    · simp only [h1, if_true]
      obtain ⟨f2w, hf2w, he1w⟩ := inv.t1_entries f1w hf1w _ h1
      have hp2w : ptePpn (m f1w (walkIndex w 1)) = f2w := by
        rw [he1w]; exact ptePpn_mkPTE_one f2w (lt_of_lt_of_le (inv.t2_lt f2w hf2w) hb)
      have hleaf : memWrite m f2 (walkIndex vpn 2) v f2w (walkIndex w 2) =
          m f2w (walkIndex w 2) := by
        by_cases hcf : f2w = f2
        · subst hcf
          have hvv : pteValid (m f1 (walkIndex vpn 1)) = true := by
            rw [he1]; exact pteValid_mkPTE_one f2w
          have hpv : ptePpn (m f1 (walkIndex vpn 1)) = f2w := by
            rw [he1]; exact ptePpn_mkPTE_one f2w (lt_of_lt_of_le (inv.t2_lt f2w hf2w) hb)
          obtain ⟨hfe, hie⟩ := inv.t1_inj f1w hf1w f1 hf1 _ _ h1 hvv (by rw [hp2w, hpv])
          have hv0 : pteValid (m r (walkIndex vpn 0)) = true := by
            rw [he0]; exact pteValid_mkPTE_one f1
          have hp0 : ptePpn (m r (walkIndex vpn 0)) = f1 := by
            rw [he0]; exact ptePpn_mkPTE_one f1 (lt_of_lt_of_le (inv.t1_lt f1 hf1) hb)
          have hi0 : walkIndex w 0 = walkIndex vpn 0 := by
            apply inv.root_inj _ _ h0 hv0
            rw [hp1w, hp0, hfe]
          have hi2 : walkIndex w 2 ≠ walkIndex vpn 2 := by
            intro hcon
            exact hw ⟨hi0, hie, hcon⟩
          exact memWrite_ne_idx _ _ _ _ _ _ hi2
        · exact memWrite_ne_frame _ _ _ _ _ _ hcf
      rw [hp2w, hleaf]
    · simp [h1]
  · simp [h0]

/-- Allocating a fresh level-2 node (writing a `V`-only entry into an owned
level-1 node whose slot was invalid) does not change any observable
mapping: the fresh node is all zeroes. -/
theorem vt_writeB_all {r F : Nat} {m : Nat → Nat → Nat} {T1 T2 : List Nat}
    (inv : PTInv r F m T1 T2) (hb : F + 1 ≤ 2 ^ 44) {f1 i1v : Nat}
    (hf1 : f1 ∈ T1) (hi : pteValid (m f1 i1v) = false) (w : Nat) :
    vt r (memWrite m f1 i1v (mkPTE F 1)) w = vt r m w := by
  have hrf1 : r ≠ f1 := fun h => inv.root_nt1 (h ▸ hf1)
  have hread0 : memWrite m f1 i1v (mkPTE F 1) r (walkIndex w 0) =
      m r (walkIndex w 0) := memWrite_ne_frame _ _ _ _ _ _ hrf1
  unfold vt
  rw [hread0]
  by_cases h0 : pteValid (m r (walkIndex w 0))
  · simp only [h0, if_true]
    obtain ⟨f1w, hf1w, he0w⟩ := inv.root_entries _ h0
    have hp1w : ptePpn (m r (walkIndex w 0)) = f1w := by
      rw [he0w]; exact ptePpn_mkPTE_one f1w (by have := inv.t1_lt f1w hf1w; omega)
    rw [hp1w]
    by_cases hc : f1w = f1 ∧ walkIndex w 1 = i1v
    · obtain ⟨rfl, hceq⟩ := hc
      rw [hceq, memWrite_eq, hi]
      have hnew : pteValid (mkPTE F 1) = true := pteValid_mkPTE_one F
      simp only [hnew, if_true]
      have hpF : ptePpn (mkPTE F 1) = F := ptePpn_mkPTE_one F (by omega)
      rw [hpF]
      have hFr : pteValid (memWrite m f1w i1v (mkPTE F 1) F (walkIndex w 2)) = false := by
        rw [memWrite_ne_frame _ _ _ _ _ _ (by have := inv.t1_lt f1w hf1; omega)]
        rw [inv.unalloc F (le_refl F) _]
        exact pteValid_zero
      simp [hFr]
    · have hread1 : memWrite m f1 i1v (mkPTE F 1) f1w (walkIndex w 1) =
          m f1w (walkIndex w 1) := by
        rw [memWrite]
        simp only [hc, if_false]
      rw [hread1]
      by_cases h1 : pteValid (m f1w (walkIndex w 1))
      · simp only [h1, if_true]
        obtain ⟨f2w, hf2w, he1w⟩ := inv.t1_entries f1w hf1w _ h1
        have hp2w : ptePpn (m f1w (walkIndex w 1)) = f2w := by
          rw [he1w]; exact ptePpn_mkPTE_one f2w (by have := inv.t2_lt f2w hf2w; omega)
        have hread2 : memWrite m f1 i1v (mkPTE F 1) f2w (walkIndex w 2) =
            m f2w (walkIndex w 2) :=
          memWrite_ne_frame _ _ _ _ _ _ (fun h => inv.disj12 f1 hf1 (h ▸ hf2w))
        rw [hp2w, hread2]
      · simp [h1]
  · simp [h0]

/-- Allocating a fresh level-1 node and a fresh level-2 node under it (the
walk found the root slot invalid) does not change any observable mapping:
both fresh nodes are all zeroes. -/
theorem vt_writeC_all {r F : Nat} {m : Nat → Nat → Nat} {T1 T2 : List Nat}
    (inv : PTInv r F m T1 T2) (hb : F + 2 ≤ 2 ^ 44) {i0v i1v : Nat}
    (hi : pteValid (m r i0v) = false) (w : Nat) :
    vt r (memWrite (memWrite m r i0v (mkPTE F 1)) F i1v (mkPTE (F + 1) 1)) w =
      vt r m w := by
  have hrlt := inv.root_lt
  have hrF : r ≠ F := Nat.ne_of_lt inv.root_lt
  have hm'r : ∀ k, memWrite (memWrite m r i0v (mkPTE F 1)) F i1v (mkPTE (F + 1) 1) r k =
      memWrite m r i0v (mkPTE F 1) r k :=
    fun k => memWrite_ne_frame _ _ _ _ _ _ hrF
  have hm'other : ∀ f k, f ≠ r → f ≠ F →
      memWrite (memWrite m r i0v (mkPTE F 1)) F i1v (mkPTE (F + 1) 1) f k = m f k := by
    intro f k h1 h2
    rw [memWrite_ne_frame _ _ _ _ _ _ h2, memWrite_ne_frame _ _ _ _ _ _ h1]
  unfold vt
  rw [hm'r]
  by_cases hc0 : walkIndex w 0 = i0v
  · rw [hc0, memWrite_eq, hi]
    have hnew : pteValid (mkPTE F 1) = true := pteValid_mkPTE_one F
    simp only [hnew, if_true]
    have hpF : ptePpn (mkPTE F 1) = F := ptePpn_mkPTE_one F (by omega)
    rw [hpF]
    by_cases hc1 : walkIndex w 1 = i1v
    · rw [hc1, memWrite_eq]
      have hnew1 : pteValid (mkPTE (F + 1) 1) = true := pteValid_mkPTE_one (F + 1)
      simp only [hnew1, if_true]
      have hpF1 : ptePpn (mkPTE (F + 1) 1) = F + 1 := ptePpn_mkPTE_one (F + 1) (by omega)
      rw [hpF1]
      have hleaf : pteValid (memWrite (memWrite m r i0v (mkPTE F 1)) F i1v
          (mkPTE (F + 1) 1) (F + 1) (walkIndex w 2)) = false := by
        rw [hm'other (F + 1) _ (by omega) (by omega),
          inv.unalloc (F + 1) (by omega) _]
        exact pteValid_zero
      simp [hleaf]
    · have h1r : memWrite (memWrite m r i0v (mkPTE F 1)) F i1v (mkPTE (F + 1) 1) F
          (walkIndex w 1) = m F (walkIndex w 1) := by
        rw [memWrite_ne_idx _ _ _ _ _ _ hc1, memWrite_ne_frame _ _ _ _ _ _ (Ne.symm hrF)]
      rw [h1r, inv.unalloc F (le_refl F) _]
      simp [pteValid_zero]
  · rw [memWrite_ne_idx _ _ _ _ _ _ hc0]
    by_cases h0 : pteValid (m r (walkIndex w 0))
    · simp only [h0, if_true]
      obtain ⟨f1w, hf1w, he0w⟩ := inv.root_entries _ h0
      have hp1w : ptePpn (m r (walkIndex w 0)) = f1w := by
        rw [he0w]; exact ptePpn_mkPTE_one f1w (by have := inv.t1_lt f1w hf1w; omega)
      rw [hp1w]
      have hf1ne : f1w ≠ r := fun h => inv.root_nt1 (h ▸ hf1w)
      have hf1neF : f1w ≠ F := Nat.ne_of_lt (inv.t1_lt f1w hf1w)
      rw [hm'other f1w _ hf1ne hf1neF]
      by_cases h1 : pteValid (m f1w (walkIndex w 1))
      · simp only [h1, if_true]
        obtain ⟨f2w, hf2w, he1w⟩ := inv.t1_entries f1w hf1w _ h1
        have hp2w : ptePpn (m f1w (walkIndex w 1)) = f2w := by
          rw [he1w]; exact ptePpn_mkPTE_one f2w (by have := inv.t2_lt f2w hf2w; omega)
        rw [hp2w]
        have hf2ne : f2w ≠ r := fun h => inv.root_nt2 (h ▸ hf2w)
        have hf2neF : f2w ≠ F := Nat.ne_of_lt (inv.t2_lt f2w hf2w)
        rw [hm'other f2w _ hf2ne hf2neF]
      · simp [h1]
    · simp [h0]

theorem flagV_eq : flagV = 1 := rfl

/-- What `find_pte_create_mut` produces: an updated table satisfying the
invariant with possibly extended node lists, a leaf slot reached through an
owned level-1/level-2 pair, and no change to any observable mapping. -/
theorem find_pte_create_spec {pt : PT} {T1 T2 : List Nat}
    (inv : PTInv pt.root_ppn pt.fresh pt.mem T1 T2)
    (hb : pt.fresh + 2 ≤ 2 ^ 44) (vpn : Nat) :
    ∃ pt2 f2 T1' T2' f1,
      find_pte_create pt vpn = (pt2, f2, walkIndex vpn 2) ∧
      PTInv pt2.root_ppn pt2.fresh pt2.mem T1' T2' ∧
      pt2.root_ppn = pt.root_ppn ∧
      pt.fresh ≤ pt2.fresh ∧ pt2.fresh ≤ pt.fresh + 2 ∧
      f1 ∈ T1' ∧ f2 ∈ T2' ∧
      pt2.mem pt2.root_ppn (walkIndex vpn 0) = mkPTE f1 1 ∧
      pt2.mem f1 (walkIndex vpn 1) = mkPTE f2 1 ∧
      (∀ w, vt pt2.root_ppn pt2.mem w = vt pt.root_ppn pt.mem w) := by
  by_cases h0 : pteValid (pt.mem pt.root_ppn (walkIndex vpn 0))
  · obtain ⟨f1, hf1, he0⟩ := inv.root_entries _ h0
    have hp1 : ptePpn (pt.mem pt.root_ppn (walkIndex vpn 0)) = f1 := by
      rw [he0]; exact ptePpn_mkPTE_one f1 (by have := inv.t1_lt f1 hf1; omega)
    by_cases h1 : pteValid (pt.mem f1 (walkIndex vpn 1))
    · obtain ⟨f2, hf2, he1⟩ := inv.t1_entries f1 hf1 _ h1
      have hp2 : ptePpn (pt.mem f1 (walkIndex vpn 1)) = f2 := by
        rw [he1]; exact ptePpn_mkPTE_one f2 (by have := inv.t2_lt f2 hf2; omega)
      refine ⟨pt, f2, T1, T2, f1, ?_, inv, rfl, le_refl _, by omega, hf1, hf2,
        he0, he1, fun w => rfl⟩
      unfold find_pte_create createStep
      simp [h0, h1, hp1, hp2]
    · have hfree : f1 ≠ pt.root_ppn := fun h => inv.root_nt1 (h ▸ hf1)
      refine ⟨{ pt with mem := memWrite pt.mem f1 (walkIndex vpn 1) (mkPTE pt.fresh flagV),
                        fresh := pt.fresh + 1 }, pt.fresh, T1, T2 ++ [pt.fresh], f1,
        ?_, ?_, rfl, by show pt.fresh ≤ pt.fresh + 1; omega,
        by show pt.fresh + 1 ≤ pt.fresh + 2; omega, hf1,
        List.mem_append.mpr (Or.inr (List.mem_singleton.mpr rfl)), ?_, ?_, ?_⟩
      · have hmm : memWrite pt.mem f1 (walkIndex vpn 1) (mkPTE pt.fresh 1) f1
            (walkIndex vpn 1) = mkPTE pt.fresh 1 := memWrite_eq _ _ _ _
        unfold find_pte_create createStep
        simp [h0, h1, hp1, hmm, flagV_eq, ptePpn_mkPTE_one pt.fresh
          (show pt.fresh < 2 ^ 44 by omega)]
      · simpa [flagV_eq] using invB inv (by omega) hf1
      · show memWrite pt.mem f1 (walkIndex vpn 1) (mkPTE pt.fresh flagV) pt.root_ppn
            (walkIndex vpn 0) = mkPTE f1 1
        rw [memWrite_ne_frame _ _ _ _ _ _ (Ne.symm hfree)]
        exact he0
      · show memWrite pt.mem f1 (walkIndex vpn 1) (mkPTE pt.fresh flagV) f1
            (walkIndex vpn 1) = mkPTE pt.fresh 1
        rw [memWrite_eq, flagV_eq]
      · intro w
        show vt pt.root_ppn (memWrite pt.mem f1 (walkIndex vpn 1) (mkPTE pt.fresh flagV)) w =
          vt pt.root_ppn pt.mem w
        rw [flagV_eq]
        exact vt_writeB_all inv (by omega) hf1 (by simpa using h1) w
  · have h0' : pteValid (pt.mem pt.root_ppn (walkIndex vpn 0)) = false := by
      simpa using h0
    have hFr : pt.root_ppn ≠ pt.fresh := Nat.ne_of_lt inv.root_lt
    have hzero : pt.mem pt.fresh (walkIndex vpn 1) = 0 :=
      inv.unalloc pt.fresh (le_refl _) _
    refine ⟨{ pt with
        mem := memWrite (memWrite pt.mem pt.root_ppn (walkIndex vpn 0) (mkPTE pt.fresh flagV))
          pt.fresh (walkIndex vpn 1) (mkPTE (pt.fresh + 1) flagV),
        fresh := pt.fresh + 1 + 1 }, pt.fresh + 1,
      T1 ++ [pt.fresh], T2 ++ [pt.fresh + 1], pt.fresh,
      ?_, ?_, rfl, by show pt.fresh ≤ pt.fresh + 1 + 1; omega,
      by show pt.fresh + 1 + 1 ≤ pt.fresh + 2; omega,
      List.mem_append.mpr (Or.inr (List.mem_singleton.mpr rfl)),
      List.mem_append.mpr (Or.inr (List.mem_singleton.mpr rfl)), ?_, ?_, ?_⟩
    · have hmm0 : memWrite pt.mem pt.root_ppn (walkIndex vpn 0) (mkPTE pt.fresh 1)
          pt.root_ppn (walkIndex vpn 0) = mkPTE pt.fresh 1 := memWrite_eq _ _ _ _
      have hmm1 : memWrite pt.mem pt.root_ppn (walkIndex vpn 0) (mkPTE pt.fresh 1)
          pt.fresh (walkIndex vpn 1) = 0 := by
        rw [memWrite_ne_frame _ _ _ _ _ _ (Ne.symm hFr)]
        exact hzero
      have hmm2 : memWrite (memWrite pt.mem pt.root_ppn (walkIndex vpn 0)
          (mkPTE pt.fresh 1)) pt.fresh (walkIndex vpn 1) (mkPTE (pt.fresh + 1) 1)
          pt.fresh (walkIndex vpn 1) = mkPTE (pt.fresh + 1) 1 := memWrite_eq _ _ _ _
      unfold find_pte_create createStep
      simp [h0', hmm0, hmm1, hmm2, flagV_eq, pteValid_zero,
        ptePpn_mkPTE_one pt.fresh (show pt.fresh < 2 ^ 44 by omega),
        ptePpn_mkPTE_one (pt.fresh + 1) (show pt.fresh + 1 < 2 ^ 44 by omega)]
    · have := invC inv hb (walkIndex vpn 0) (walkIndex vpn 1)
      simpa [flagV_eq] using this
    · show memWrite (memWrite pt.mem pt.root_ppn (walkIndex vpn 0) (mkPTE pt.fresh flagV))
          pt.fresh (walkIndex vpn 1) (mkPTE (pt.fresh + 1) flagV) pt.root_ppn
          (walkIndex vpn 0) = mkPTE pt.fresh 1
      rw [memWrite_ne_frame _ _ _ _ _ _ hFr, memWrite_eq, flagV_eq]
    · show memWrite (memWrite pt.mem pt.root_ppn (walkIndex vpn 0) (mkPTE pt.fresh flagV))
          pt.fresh (walkIndex vpn 1) (mkPTE (pt.fresh + 1) flagV) pt.fresh
          (walkIndex vpn 1) = mkPTE (pt.fresh + 1) 1
      rw [memWrite_eq, flagV_eq]
    · intro w
      show vt pt.root_ppn (memWrite (memWrite pt.mem pt.root_ppn (walkIndex vpn 0)
          (mkPTE pt.fresh flagV)) pt.fresh (walkIndex vpn 1)
          (mkPTE (pt.fresh + 1) flagV)) w = vt pt.root_ppn pt.mem w
      rw [flagV_eq]
      exact vt_writeC_all inv hb h0' w

/-- Writing into a leaf slot (a level-2 node) preserves the invariant: the
invariant constrains only the root and level-1 node contents. -/
theorem invLeaf {r F : Nat} {m : Nat → Nat → Nat} {T1 T2 : List Nat}
    (inv : PTInv r F m T1 T2) {f2 : Nat} (hf2 : f2 ∈ T2) (i2v v : Nat) :
    PTInv r F (memWrite m f2 i2v v) T1 T2 := by
  have hrne : r ≠ f2 := fun h => inv.root_nt2 (h ▸ hf2)
  have hread : ∀ f' i', f' ≠ f2 → memWrite m f2 i2v v f' i' = m f' i' :=
    fun _ _ h => memWrite_ne_frame _ _ _ _ _ _ h
  refine ⟨inv.root_lt, inv.t1_lt, inv.t2_lt, inv.disj12, inv.root_nt1,
    inv.root_nt2, ?_, ?_, ?_, ?_, ?_⟩
  · intro f hf i
    rw [hread f i (fun h => by have := inv.t2_lt f2 hf2; omega)]
    exact inv.unalloc f hf i
  · intro i h
    rw [hread r i hrne] at h ⊢
    exact inv.root_entries i h
  · intro t ht i h
    rw [hread t i (fun h' => inv.disj12 t ht (h' ▸ hf2))] at h ⊢
    exact inv.t1_entries t ht i h
  · intro i j hi hj hij
    rw [hread r i hrne] at hi hij
    rw [hread r j hrne] at hj hij
    exact inv.root_inj i j hi hj hij
  · intro t ht t' ht' i j hi hj hij
    rw [hread t i (fun h' => inv.disj12 t ht (h' ▸ hf2))] at hi hij
    rw [hread t' j (fun h' => inv.disj12 t' ht' (h' ▸ hf2))] at hj hij
    exact inv.t1_inj t ht t' ht' i j hi hj hij

/-- `PageTable::map` under the invariant: when the VPN's observable mapping
is absent, `map(vpn, ppn, flags)` succeeds, afterwards `translate` (and the
observable mapping) of that VPN give exactly `PTE(ppn, flags | V)`, every
other index triple is untouched, and the invariant carries over. -/
theorem ptMap_spec {pt : PT} {T1 T2 : List Nat}
    (inv : PTInv pt.root_ppn pt.fresh pt.mem T1 T2)
    (hb : pt.fresh + 2 ≤ 2 ^ 44) {vpn : Nat} (p fl : Nat) (hfl : fl < 256)
    (hnone : vt pt.root_ppn pt.mem vpn = none) :
    ∃ pt' T1' T2',
      ptMap pt vpn p fl = some pt' ∧
      PTInv pt'.root_ppn pt'.fresh pt'.mem T1' T2' ∧
      pt'.root_ppn = pt.root_ppn ∧
      pt.fresh ≤ pt'.fresh ∧ pt'.fresh ≤ pt.fresh + 2 ∧
      translate pt' vpn = some (mkPTE p (fl ||| 1)) ∧
      vt pt'.root_ppn pt'.mem vpn = some (mkPTE p (fl ||| 1)) ∧
      (∀ w, ¬ sameIdx w vpn → vt pt'.root_ppn pt'.mem w = vt pt.root_ppn pt.mem w) := by
  obtain ⟨pt2, f2, T1', T2', f1, hfc, inv2, hroot, hfle, hfle2, hf1, hf2, he0, he1, hpres⟩ :=
    find_pte_create_spec inv hb vpn
  have hb2 : pt2.fresh ≤ 2 ^ 44 := by omega
  have hp1 : ptePpn (pt2.mem pt2.root_ppn (walkIndex vpn 0)) = f1 := by
    rw [he0]; exact ptePpn_mkPTE_one f1 (by have := inv2.t1_lt f1 hf1; omega)
  have hp2 : ptePpn (pt2.mem f1 (walkIndex vpn 1)) = f2 := by
    rw [he1]; exact ptePpn_mkPTE_one f2 (by have := inv2.t2_lt f2 hf2; omega)
  have hv0 : pteValid (pt2.mem pt2.root_ppn (walkIndex vpn 0)) = true := by
    rw [he0]; exact pteValid_mkPTE_one f1
  have hv1 : pteValid (pt2.mem f1 (walkIndex vpn 1)) = true := by
    rw [he1]; exact pteValid_mkPTE_one f2
  have hvt2 : vt pt2.root_ppn pt2.mem vpn = none := by rw [hpres]; exact hnone
  have hleaf_invalid : pteValid (pt2.mem f2 (walkIndex vpn 2)) = false := by
    by_contra hcon
    have hcon' : pteValid (pt2.mem f2 (walkIndex vpn 2)) = true := by
      revert hcon
      cases pteValid (pt2.mem f2 (walkIndex vpn 2)) <;> simp
    rw [vt, hv0, if_pos rfl, hp1, hv1, if_pos rfl, hp2, hcon', if_pos rfl] at hvt2
    exact Option.noConfusion hvt2
  refine ⟨PT.mk pt2.root_ppn pt2.fresh
      (memWrite pt2.mem f2 (walkIndex vpn 2) (mkPTE p (fl ||| flagV))),
    T1', T2', ?_, ?_, hroot, by show pt.fresh ≤ pt2.fresh; omega,
    by show pt2.fresh ≤ pt.fresh + 2; omega, ?_, ?_, ?_⟩
  · unfold ptMap
    rw [hfc]
    simp only [hleaf_invalid]
    rfl
  · exact invLeaf inv2 hf2 _ _
  · have hrd0 : memWrite pt2.mem f2 (walkIndex vpn 2) (mkPTE p (fl ||| flagV))
        pt2.root_ppn (walkIndex vpn 0) = pt2.mem pt2.root_ppn (walkIndex vpn 0) :=
      memWrite_ne_frame _ _ _ _ _ _ (fun h => inv2.root_nt2 (h ▸ hf2))
    have hrd1 : memWrite pt2.mem f2 (walkIndex vpn 2) (mkPTE p (fl ||| flagV))
        f1 (walkIndex vpn 1) = pt2.mem f1 (walkIndex vpn 1) :=
      memWrite_ne_frame _ _ _ _ _ _ (fun h => inv2.disj12 f1 hf1 (h ▸ hf2))
    rw [translate_eq]
    dsimp only
    rw [hrd0, hv0, if_pos rfl, hp1, hrd1, hv1, if_pos rfl, hp2, memWrite_eq, flagV_eq]
  · have hrd0 : memWrite pt2.mem f2 (walkIndex vpn 2) (mkPTE p (fl ||| flagV))
        pt2.root_ppn (walkIndex vpn 0) = pt2.mem pt2.root_ppn (walkIndex vpn 0) :=
      memWrite_ne_frame _ _ _ _ _ _ (fun h => inv2.root_nt2 (h ▸ hf2))
    have hrd1 : memWrite pt2.mem f2 (walkIndex vpn 2) (mkPTE p (fl ||| flagV))
        f1 (walkIndex vpn 1) = pt2.mem f1 (walkIndex vpn 1) :=
      memWrite_ne_frame _ _ _ _ _ _ (fun h => inv2.disj12 f1 hf1 (h ▸ hf2))
    have hvnew : pteValid (mkPTE p (fl ||| flagV)) = true := by
      rw [flagV_eq]; exact pteValid_mkPTE_or_one p fl hfl
    unfold vt
    dsimp only
    rw [hrd0, hv0, if_pos rfl, hp1, hrd1, hv1, if_pos rfl, hp2, memWrite_eq,
      hvnew, if_pos rfl, flagV_eq]
  · intro w hw
    have h1 : vt pt2.root_ppn (memWrite pt2.mem f2 (walkIndex vpn 2)
        (mkPTE p (fl ||| flagV))) w = vt pt2.root_ppn pt2.mem w :=
      vt_leafWrite_other inv2 hb2 hf1 hf2 he0 he1 _ w hw
    dsimp only
    rw [h1, hpres]

/-- `PageTable::unmap` under the invariant: when the VPN's observable
mapping is present, `unmap(vpn)` succeeds, afterwards `translate` of that
VPN returns `some 0` — the zeroed slot, an *invalid* entry, not `none` —
and every other index triple is untouched. -/
theorem ptUnmap_spec {pt : PT} {T1 T2 : List Nat}
    (inv : PTInv pt.root_ppn pt.fresh pt.mem T1 T2)
    (hb : pt.fresh ≤ 2 ^ 44) {vpn e : Nat}
    (hsome : vt pt.root_ppn pt.mem vpn = some e) :
    ∃ pt',
      ptUnmap pt vpn = some pt' ∧
      PTInv pt'.root_ppn pt'.fresh pt'.mem T1 T2 ∧
      pt'.root_ppn = pt.root_ppn ∧ pt'.fresh = pt.fresh ∧
      translate pt' vpn = some 0 ∧
      vt pt'.root_ppn pt'.mem vpn = none ∧
      (∀ w, ¬ sameIdx w vpn → vt pt'.root_ppn pt'.mem w = vt pt.root_ppn pt.mem w) := by
  rcases walk_elim inv hb vpn with ⟨h0, _⟩ | ⟨f1, hf1, he0, hrest⟩
  · rw [vt, h0] at hsome
    simp at hsome
  have hv0 : pteValid (pt.mem pt.root_ppn (walkIndex vpn 0)) = true := by
    rw [he0]; exact pteValid_mkPTE_one f1
  have hp1 : ptePpn (pt.mem pt.root_ppn (walkIndex vpn 0)) = f1 := by
    rw [he0]; exact ptePpn_mkPTE_one f1 (by have := inv.t1_lt f1 hf1; omega)
  rcases hrest with ⟨h1, _⟩ | ⟨f2, hf2, he1, hloc⟩
  · rw [vt, hv0, if_pos rfl, hp1, h1] at hsome
    simp at hsome
  have hv1 : pteValid (pt.mem f1 (walkIndex vpn 1)) = true := by
    rw [he1]; exact pteValid_mkPTE_one f2
  have hp2 : ptePpn (pt.mem f1 (walkIndex vpn 1)) = f2 := by
    rw [he1]; exact ptePpn_mkPTE_one f2 (by have := inv.t2_lt f2 hf2; omega)
  have hleafv : pteValid (pt.mem f2 (walkIndex vpn 2)) = true := by
    by_contra hcon
    have hcon' : pteValid (pt.mem f2 (walkIndex vpn 2)) = false := by
      revert hcon
      cases pteValid (pt.mem f2 (walkIndex vpn 2)) <;> simp
    rw [vt, hv0, if_pos rfl, hp1, hv1, if_pos rfl, hp2, hcon'] at hsome
    simp at hsome
  have hrd0 : memWrite pt.mem f2 (walkIndex vpn 2) 0 pt.root_ppn (walkIndex vpn 0) =
      pt.mem pt.root_ppn (walkIndex vpn 0) :=
    memWrite_ne_frame _ _ _ _ _ _ (fun h => inv.root_nt2 (h ▸ hf2))
  have hrd1 : memWrite pt.mem f2 (walkIndex vpn 2) 0 f1 (walkIndex vpn 1) =
      pt.mem f1 (walkIndex vpn 1) :=
    memWrite_ne_frame _ _ _ _ _ _ (fun h => inv.disj12 f1 hf1 (h ▸ hf2))
  refine ⟨PT.mk pt.root_ppn pt.fresh (memWrite pt.mem f2 (walkIndex vpn 2) 0),
    ?_, invLeaf inv hf2 _ _, rfl, rfl, ?_, ?_, ?_⟩
  · unfold ptUnmap
    rw [hloc]
    simp [hleafv]
  · rw [translate_eq]
    dsimp only
    rw [hrd0, hv0, if_pos rfl, hp1, hrd1, hv1, if_pos rfl, hp2, memWrite_eq]
  · unfold vt
    dsimp only
    rw [hrd0, hv0, if_pos rfl, hp1, hrd1, hv1, if_pos rfl, hp2, memWrite_eq]
    simp [pteValid_zero]
  · intro w hw
    dsimp only
    exact vt_leafWrite_other inv hb hf1 hf2 he0 he1 0 w hw

/-! ## Claims C4 and C5 -/

/-- Modelled from the spec: an SV39 walk that consumes the three 9-bit
indices *top-level first* — the root is indexed with VPN bits 26..18, the
middle level with bits 17..9, the leaf level with bits 8..0.  This is what
the spec (and the RISC-V SV39 hardware) prescribe; it is compared with the
code's walk, which consumes `get_sv39_indexes` in slot order 0,1,2. -/
def specOrderTranslate (r : Nat) (m : Nat → Nat → Nat) (vpn : Nat) : Option Nat :=
  if pteValid (m r (walkIndex vpn 2)) then
    if pteValid (m (ptePpn (m r (walkIndex vpn 2))) (walkIndex vpn 1)) then
      some (m (ptePpn (m (ptePpn (m r (walkIndex vpn 2)))
        (walkIndex vpn 1))) (walkIndex vpn 0))
    else none
  else none

/-- The page table produced by mapping VPN 1 to PPN 7 with flags `R` in a
fresh table (root frame 0). -/
def c4Pt : Option PT := ptMap (ptNew 0) 1 7 flagR

/-- The code's own translation of VPN 1 in `c4Pt`. -/
def c4TranslateCode : Option Nat :=
  match c4Pt with
  | some pt => translate pt 1
  | none => none

/-- The spec-order (hardware) translation of `v` in `c4Pt`. -/
def c4TranslateSpec (v : Nat) : Option Nat :=
  match c4Pt with
  | some pt => specOrderTranslate pt.root_ppn pt.mem v
  | none => none

/-- C4: the claim states that the walk descends top-level first: the root
level consumes the VPN's bits 26..18 (slot 0 of the accessor's result).
In the code, `get_sv39_indexes` returns the *low* 9 bits in slot 0
(`(bits >> 0) & 0x1ff`), and the walk consumes slot 0 at the root — so the
root is indexed with bits 8..0, the reverse of the claim.  At VPN 1:
slot 0 is 1 while bits 26..18 are 0; after mapping VPN 1, the code's walk
finds the entry at VPN 1, but a spec-order (hardware) walk finds nothing
at VPN 1 and instead finds that entry at VPN `2^18`. -/
theorem C4_walk_order_bug :
    (get_sv39_indexes 1).getD 0 0 = 1 ∧
    1 >>> 18 &&& 511 = 0 ∧
    c4TranslateCode = some (mkPTE 7 (flagR ||| flagV)) ∧
    c4TranslateSpec 1 = none ∧
    c4TranslateSpec (2 ^ 18) = some (mkPTE 7 (flagR ||| flagV)) := by
  refine ⟨rfl, rfl, ?_, ?_, ?_⟩ <;> decide

/-- `map(vpn, p, fl)` followed by `translate(vpn)` (panic = `none`). -/
def mapThenTranslate (pt : PT) (vpn p fl : Nat) : Option Nat :=
  match ptMap pt vpn p fl with
  | some pt' => translate pt' vpn
  | none => none

/-- `map(vpn, p, fl)`, then `unmap(vpn)`, then `translate(vpn)`. -/
def mapUnmapTranslate (pt : PT) (vpn p fl : Nat) : Option Nat :=
  match ptMap pt vpn p fl with
  | some pt' =>
    match ptUnmap pt' vpn with
    | some pt'' => translate pt'' vpn
    | none => none
  | none => none

/-- The state after `new()`, `map(5, 7, R)`, `unmap(5)`. -/
def c5Pt2 : Option PT :=
  match ptMap (ptNew 0) 5 7 flagR with
  | some pt' => ptUnmap pt' 5
  | none => none

/-- What `translate(5)` returns in that state. -/
def c5TranslateAfterUnmap : Option Nat :=
  match c5Pt2 with
  | some pt => translate pt 5
  | none => none

/-- C5, counterexample: the claim says that after `map(vpn, ppn, flags)`
and a subsequent `unmap(vpn)`, `translate(vpn)` returns none, and that
`translate` returns a PTE only when the leaf entry exists and is valid.
On the concrete reachable state `new(); map(5, 7, R); unmap(5)` the code's
`translate(5)` returns `some 0` — a copy of the zeroed (invalid) leaf slot
— not none: `find_pte_mut` checks validity only at levels 0 and 1 and
returns the leaf slot unconditionally. -/
theorem C5_counterexample :
    c5TranslateAfterUnmap = some 0 ∧ pteValid 0 = false := by
  refine ⟨?_, rfl⟩
  decide

/-- C5 (amended): for every page table satisfying the structural invariant
(with room in the allocator and the VPN's observable mapping absent),
`map(vpn, ppn, flags)` succeeds and `translate(vpn)` then returns the PTE
`PTE(ppn, flags | V)` — its PPN equals `ppn` and its flags contain `V` and
all bits of `flags`; after a subsequent `unmap(vpn)`, `translate(vpn)`
returns `some 0`, the zeroed invalid entry, **not** none (the walk still
reaches the leaf slot and copies it without checking its validity). -/
theorem C5_map_unmap_translate {pt : PT} {T1 T2 : List Nat} (vpn p fl : Nat)
    (inv : PTInv pt.root_ppn pt.fresh pt.mem T1 T2)
    (hb : pt.fresh + 2 ≤ 2 ^ 44) (hp : p < 2 ^ 44) (hfl : fl < 256)
    (hnone : vt pt.root_ppn pt.mem vpn = none) :
    mapThenTranslate pt vpn p fl = some (mkPTE p (fl ||| 1)) ∧
    ptePpn (mkPTE p (fl ||| 1)) = p ∧
    pteFlags (mkPTE p (fl ||| 1)) = fl ||| 1 ∧
    pteValid (mkPTE p (fl ||| 1)) = true ∧
    mapUnmapTranslate pt vpn p fl = some 0 ∧
    pteValid 0 = false := by
  obtain ⟨pt', T1', T2', hmap, inv', hroot', hf1, hf2, htr, hvt, hother⟩ :=
    ptMap_spec inv hb p fl hfl hnone
  have hfl1 : fl ||| 1 < 1024 := lt_of_lt_of_le (or_one_lt fl hfl) (by norm_num)
  refine ⟨?_, ptePpn_mkPTE p (fl ||| 1) hfl1 hp, pteFlags_mkPTE p (fl ||| 1) (or_one_lt fl hfl),
    pteValid_mkPTE_or_one p fl hfl, ?_, rfl⟩
  · unfold mapThenTranslate
    rw [hmap]
    exact htr
  · obtain ⟨pt'', hunmap, _, _, _, htr'', _, _⟩ :=
      ptUnmap_spec inv' (by omega) hvt
    unfold mapUnmapTranslate
    rw [hmap]
    show (match ptUnmap pt' vpn with
      | some pt2 => translate pt2 vpn
      | none => none) = some 0
    rw [hunmap]
    exact htr''

/-- C5, witness: the amended theorem applied to the concrete fresh table
with `vpn = 5`, `ppn = 7`, `flags = R`. -/
theorem C5_witness :
    mapThenTranslate (ptNew 0) 5 7 flagR = some (mkPTE 7 (flagR ||| 1)) ∧
    mapUnmapTranslate (ptNew 0) 5 7 flagR = some 0 := by
  obtain ⟨h1, _, _, _, h5, _⟩ :=
    @C5_map_unmap_translate (ptNew 0) [] [] 5 7 flagR
      (ptNew_inv 0) (by show 0 + 1 + 2 ≤ 2 ^ 44; norm_num) (by norm_num)
      (by show (2 : Nat) < 256; norm_num) rfl
  exact ⟨h1, h5⟩

/-! ## Frame allocator (`mm/frame_allocator.rs`) — claims C7 and C8 -/

/-- `StackFrameAllocator`: `current` (next free PPN), `end` of the managed
range (exclusive), stack of recycled PPNs (head = top of the `Vec`). -/
structure FA where
  current : Nat
  endp : Nat
  recycled : List Nat
  deriving DecidableEq

/-- `StackFrameAllocator::new()` followed by `init(start, end)`
(`init` sets `current` and `end` and leaves `recycled` untouched; after
`new()` it is empty). -/
def fa_init (start endp : Nat) : FA :=
  { current := start, endp := endp, recycled := [] }

/-- `StackFrameAllocator::alloc` (`mm/frame_allocator.rs` lines 127-142):
pop from `recycled` if non-empty; else if `current == end` fail (`None`);
else return `current` and bump it. -/
def fa_alloc (s : FA) : Option (Nat × FA) :=
  match s.recycled with
  | p :: rest => some (p, { s with recycled := rest })
  | [] =>
    if s.current = s.endp then none
    else some (s.current, { s with current := s.current + 1 })

/-- `StackFrameAllocator::dealloc` (`mm/frame_allocator.rs` lines 144-152):
panic (`none`) when `ppn >= current` or `ppn` is already recycled,
otherwise push it. -/
def fa_dealloc (s : FA) (ppn : Nat) : Option FA :=
  if s.current ≤ ppn ∨ ppn ∈ s.recycled then none
  else some { s with recycled := ppn :: s.recycled }

/-- Allocator states reachable from `init(start, end)` by `alloc` and
(successful) `dealloc` calls. -/
inductive FAReach (start endp : Nat) : FA → Prop where
  | init : FAReach start endp (fa_init start endp)
  | alloc {s : FA} {p : Nat} {s' : FA} :
      FAReach start endp s → fa_alloc s = some (p, s') → FAReach start endp s'
  | dealloc {s : FA} {p : Nat} {s' : FA} :
      FAReach start endp s → fa_dealloc s p = some s' → FAReach start endp s'

/-- Invariant of reachable allocator states: every recycled PPN is below
the cursor, and no PPN is recycled twice. -/
theorem fa_reach_inv {start endp : Nat} {s : FA} (h : FAReach start endp s) :
    (∀ p ∈ s.recycled, p < s.current) ∧ s.recycled.Nodup := by
  induction h with
  | init => simp [fa_init]
  | alloc hr hs ih =>
    rename_i s p s'
    unfold fa_alloc at hs
    rcases hrec : s.recycled with _ | ⟨q, rest⟩
    · rw [hrec] at hs
      by_cases hc : s.current = s.endp
      · simp [hc] at hs
      · simp [hc] at hs
        obtain ⟨hps, hs'⟩ := hs
        subst hs'
        refine ⟨?_, ?_⟩ <;> simp [hrec]
    · rw [hrec] at hs
      simp at hs
      obtain ⟨hps, hs'⟩ := hs
      subst hs'
      rw [hrec] at ih
      constructor
      · intro x hx
        simp at hx
        exact ih.1 x (by simp [hx])
      · simpa using (List.nodup_cons.mp ih.2).2
  | dealloc hr hs ih =>
    rename_i s p s'
    unfold fa_dealloc at hs
    by_cases hc : s.current ≤ p ∨ p ∈ s.recycled
    · simp [hc] at hs
    · simp [hc] at hs
      push_neg at hc
      subst hs
      refine ⟨?_, ?_⟩
      · intro x hx
        simp at hx ⊢
        rcases hx with rfl | hx
        · omega
        · have := ih.1 x hx
          omega
      · simp
        exact ⟨hc.2, ih.2⟩

/-- C7, counterexample: the claim says every dealloc of a PPN outside
`[initial_start, next_free)` is fatal — in particular any PPN below the
initial start.  The state `{current := 101, end := 200, recycled := []}`
is reachable from `init(100, 200)` by one `alloc`, yet `dealloc(5)` with
`5 < 100` succeeds (the code only checks `ppn >= current` and the recycled
set; it never remembers the initial start). -/
theorem C7_counterexample :
    FAReach 100 200 (FA.mk 101 200 []) ∧
    fa_dealloc (FA.mk 101 200 []) 5 = some (FA.mk 101 200 [5]) ∧ (5 : Nat) < 100 := by
  refine ⟨@FAReach.alloc 100 200 (fa_init 100 200) 100 (FA.mk 101 200 [])
    FAReach.init (by decide), by decide, by norm_num⟩

/-- The PPN returned by `alloc`, when it succeeds. -/
def fa_alloc_ppn (s : FA) : Option Nat :=
  match fa_alloc s with
  | some (p, _) => some p
  | none => none

/-- `alloc`, then `dealloc` of the returned PPN, then `alloc` again; the
PPN returned by the second `alloc` (with `none` if any step fails). -/
def fa_alloc_dealloc_alloc (s : FA) : Option Nat :=
  match fa_alloc s with
  | some (p, s1) =>
    match fa_dealloc s1 p with
    | some s2 =>
      match fa_alloc s2 with
      | some (q, _) => some q
      | none => none
    | none => none
  | none => none

/-- C7 (amended): for every allocator state reachable from
`init(start, end)`, `dealloc(ppn)` is fatal exactly when `ppn >= next_free`
(the cursor `current`) or `ppn` is already in the recycled set; the initial
start of the range is not consulted, so a PPN below it that is also below
the cursor is accepted.  Double-free is still caught: a second `dealloc` of
the same PPN is fatal. -/
theorem C7_dealloc_guard {start endp : Nat} {s : FA}
    (_h : FAReach start endp s) (p : Nat) :
    (fa_dealloc s p = none ↔ s.current ≤ p ∨ p ∈ s.recycled) ∧
    (∀ s', fa_dealloc s p = some s' → fa_dealloc s' p = none) := by
  constructor
  · unfold fa_dealloc
    by_cases hc : s.current ≤ p ∨ p ∈ s.recycled <;> simp [hc]
  · intro s' hs'
    unfold fa_dealloc at hs' ⊢
    by_cases hc : s.current ≤ p ∨ p ∈ s.recycled
    · simp [hc] at hs'
    · simp [hc] at hs'
      subst hs'
      simp

/-- C7, witness: `dealloc(7)` on the freshly initialised allocator
`init(3, 10)` (cursor 3) is fatal because `7 ≥ 3 = next_free`. -/
theorem C7_witness : fa_dealloc (fa_init 3 10) 7 = none :=
  (C7_dealloc_guard (FAReach.init) 7).1.mpr (Or.inl (by norm_num [fa_init]))

/-- C8: for every reachable allocator state, the LIFO round trip holds —
whenever `alloc` succeeds with PPN `p`, deallocating `p` succeeds and the
next `alloc` returns `p` again (first conjunct, as an equation between the
two runs); `alloc` pops the most recently recycled PPN when the recycled
set is non-empty, bumps `next_free` otherwise, and fails exactly when the
recycled set is empty and the bump has reached the end of the range. -/
theorem C8_alloc_lifo {start endp : Nat} {s : FA} (h : FAReach start endp s) :
    fa_alloc_ppn s = fa_alloc_dealloc_alloc s ∧
    (∀ p rest, s.recycled = p :: rest →
      fa_alloc s = some (p, FA.mk s.current s.endp rest)) ∧
    (s.recycled = [] → s.current ≠ s.endp →
      fa_alloc s = some (s.current, FA.mk (s.current + 1) s.endp s.recycled)) ∧
    (fa_alloc s = none ↔ s.recycled = [] ∧ s.current = s.endp) := by
  obtain ⟨hlt, hnd⟩ := fa_reach_inv h
  refine ⟨?_, ?_, ?_, ?_⟩
  · rcases hrec : s.recycled with _ | ⟨p, rest⟩
    · by_cases hc : s.current = s.endp
      · unfold fa_alloc_ppn fa_alloc_dealloc_alloc fa_alloc
        rw [hrec]
        simp [hc]
      · unfold fa_alloc_ppn fa_alloc_dealloc_alloc fa_alloc fa_dealloc
        rw [hrec]
        simp [hc]
    · have hplt : p < s.current := hlt p (by rw [hrec]; simp)
      have hpnin : p ∉ rest := by
        rw [hrec] at hnd
        exact (List.nodup_cons.mp hnd).1
      unfold fa_alloc_ppn fa_alloc_dealloc_alloc fa_alloc fa_dealloc
      rw [hrec]
      simp [Nat.not_le_of_lt hplt, hpnin]
  · intro p rest hrec
    unfold fa_alloc
    rw [hrec]
  · intro hrec hc
    unfold fa_alloc
    rw [hrec]
    simp [hc]
  · unfold fa_alloc
    rcases hrec : s.recycled with _ | ⟨p, rest⟩
    · by_cases hc : s.current = s.endp <;> simp [hc]
    · simp

/-- C8, witness: the round trip at the reachable state with cursor 101 and
one recycled frame 50 (reached by `init(100, 200)`, `alloc`, `dealloc(50)`). -/
theorem C8_witness :
    fa_alloc_ppn (FA.mk 101 200 [50]) = fa_alloc_dealloc_alloc (FA.mk 101 200 [50]) :=
  (C8_alloc_lifo (@FAReach.dealloc 100 200 (FA.mk 101 200 []) 50
    (FA.mk 101 200 [50])
    (@FAReach.alloc 100 200 (fa_init 100 200) 100 (FA.mk 101 200 [])
      FAReach.init (by decide))
    (by decide))).1

/-! ## Task manager (`task/mod.rs`, `task/task.rs`) — claims C6 and C10 -/

/-- `TaskStatus` (`task/task.rs` lines 93-99). -/
inductive TaskStatus where
  | unInit
  | ready
  | running
  | exited
  deriving DecidableEq

/-- `TaskManagerInner`: the task table (only the status field matters for
scheduling) and `current_task`.  `num_app` is `tasks.length`. -/
structure TMState where
  tasks : List TaskStatus
  current_task : Nat
  deriving DecidableEq

/-- `TaskManager::find_next_task` (`task/mod.rs` lines 38-44): scan ids
`(current+1 .. current+num_app+1)`, each reduced `% num_app`, and return
the first whose status is Ready. -/
def find_next_task (s : TMState) : Option Nat :=
  ((List.range' (s.current_task + 1) s.tasks.length).map
    (fun a => a % s.tasks.length)).find?
    (fun id => decide (s.tasks.getD id TaskStatus.unInit = TaskStatus.ready))

/-- Result of `run_next_task`: either a context switch into a new state,
or — when no task is Ready — `shutdown(false)`, which is
`system_reset(Shutdown, NoReason)` in `sbi.rs`: a clean SBI shutdown. -/
inductive RunNextResult where
  | switched (s : TMState)
  | shutdownClean
  deriving DecidableEq

/-- `TaskManager::run_next_task` (`task/mod.rs` lines 46-65): on success
mark the chosen task Running and set `current_task` to it; otherwise shut
down cleanly. -/
def run_next_task (s : TMState) : RunNextResult :=
  match find_next_task s with
  | some next =>
    .switched { tasks := s.tasks.set next TaskStatus.running, current_task := next }
  | none => .shutdownClean

/-- `mark_current_suspended` / `mark_current_exited` (`task/mod.rs`). -/
def mark_current (s : TMState) (st : TaskStatus) : TMState :=
  { s with tasks := s.tasks.set s.current_task st }

/-- `suspend_current_and_run_next` (`task/mod.rs` lines 122-125). -/
def suspend_current_and_run_next (s : TMState) : RunNextResult :=
  run_next_task (mark_current s TaskStatus.ready)

/-- `exit_current_and_run_next` (`task/mod.rs` lines 127-130). -/
def exit_current_and_run_next (s : TMState) : RunNextResult :=
  run_next_task (mark_current s TaskStatus.exited)

/-- `TaskManager::run_first_task` (`task/mod.rs` lines 67-81): task 0 is
marked Running (`current_task` is already 0). -/
def run_first_task (s : TMState) : TMState :=
  { s with tasks := s.tasks.set 0 TaskStatus.running }

/-- The boot-time table: every `TaskControlBlock::new` sets
`task_status: TaskStatus::Ready` (`task/task.rs` line 57), and
`current_task` starts at 0 (`task/mod.rs` line 115). -/
def initTasks (n : Nat) : TMState :=
  { tasks := List.replicate n TaskStatus.ready, current_task := 0 }

/-- Task-manager states reachable at runtime: `run_first_task` on the boot
table, then any number of suspend/exit reschedules (a `shutdownClean`
result halts the machine, so it yields no new state). -/
inductive TMReach (n : Nat) : TMState → Prop where
  | start : TMReach n (run_first_task (initTasks n))
  | suspend {s s' : TMState} : TMReach n s →
      suspend_current_and_run_next s = .switched s' → TMReach n s'
  | exit {s s' : TMState} : TMReach n s →
      exit_current_and_run_next s = .switched s' → TMReach n s'

/-- Positional characterisation of `List.find?`. -/
theorem find?_eq_some_char {α : Type} (p : α → Bool) :
    ∀ (l : List α) (x : α),
      l.find? p = some x ↔
        ∃ i, l.get? i = some x ∧ p x = true ∧
          ∀ j, j < i → ∀ y, l.get? j = some y → p y = false := by
  intro l
  induction l with
  | nil => intro x; simp
  | cons a t ih =>
    intro x
    by_cases hpa : p a
    · rw [List.find?_cons_of_pos _ hpa]
      constructor
      · rintro ⟨rfl⟩
        exact ⟨0, by simp, hpa, fun j hj => by omega⟩
      · rintro ⟨i, hget, hpx, hmin⟩
        cases i with
        | zero =>
          simp at hget
          rw [hget]
        | succ k =>
          have := hmin 0 (by omega) a (by simp)
          rw [hpa] at this
          cases this
    · rw [List.find?_cons_of_neg _ hpa]
      rw [ih x]
      constructor
      · rintro ⟨i, hget, hpx, hmin⟩
        refine ⟨i + 1, by simpa using hget, hpx, ?_⟩
        intro j hj y hy
        cases j with
        | zero =>
          simp at hy
          subst hy
          simpa using hpa
        | succ k =>
          simp at hy
          exact hmin k (by omega) y (by simpa using hy)
      · rintro ⟨i, hget, hpx, hmin⟩
        cases i with
        | zero =>
          simp at hget
          subst hget
          rw [hpx] at hpa
          cases hpa rfl
        | succ k =>
          refine ⟨k, by simpa using hget, hpx, ?_⟩
          intro j hj y hy
          exact hmin (j + 1) (by omega) y (by simpa using hy)

theorem scan_get? (c n i : Nat) (h : i < n) :
    ((List.range' (c + 1) n).map (fun a => a % n)).get? i =
      some ((c + 1 + i) % n) := by
  rw [List.get?_eq_getElem?, List.getElem?_map]
  rw [List.getElem?_range' _ _ h]
  simp

theorem scan_get?_none (c n i : Nat) (h : ¬ i < n) :
    ((List.range' (c + 1) n).map (fun a => a % n)).get? i = none := by
  rw [List.get?_eq_getElem?, List.getElem?_map]
  rw [List.getElem?_eq_none]
  · rfl
  · simpa using h

theorem mod_cover (c n i : Nat) (hn : 0 < n) (hi : i < n) :
    ∃ d, d < n ∧ (c + 1 + d) % n = i := by
  refine ⟨(i + n - (c + 1) % n) % n, Nat.mod_lt _ hn, ?_⟩
  have h1 : (c + 1) % n < n := Nat.mod_lt _ hn
  calc (c + 1 + (i + n - (c + 1) % n) % n) % n
      = ((c + 1) % n + (i + n - (c + 1) % n) % n) % n := by
        rw [Nat.mod_add_mod]
    _ = ((c + 1) % n + (i + n - (c + 1) % n)) % n := by
        rw [Nat.add_mod_mod]
    _ = (i + n) % n := by
        have : (c + 1) % n + (i + n - (c + 1) % n) = i + n := by omega
        rw [this]
    _ = i := by
        rw [Nat.add_mod_right]
        exact Nat.mod_eq_of_lt hi

/-- C6: the scheduler's find-next returns the first Ready task id in the
scan order `(current+1 .. current+N+1) mod N` (so an Exited task is never
selected, and repeatedly-Ready tasks are served round-robin in id order);
if no task is Ready it requests a clean SBI shutdown; on success the chosen
task becomes Running and `current_task` is set to it. -/
theorem C6_scheduler {s : TMState} (hn : 0 < s.tasks.length) (j : Nat) :
    (find_next_task s = some j ↔
      ∃ d, d < s.tasks.length ∧ j = (s.current_task + 1 + d) % s.tasks.length ∧
        s.tasks.getD j TaskStatus.unInit = TaskStatus.ready ∧
        ∀ e, e < d →
          s.tasks.getD ((s.current_task + 1 + e) % s.tasks.length) TaskStatus.unInit ≠
            TaskStatus.ready) ∧
    (find_next_task s = none ↔
      ∀ i, i < s.tasks.length → s.tasks.getD i TaskStatus.unInit ≠ TaskStatus.ready) ∧
    (find_next_task s = some j →
      run_next_task s =
        .switched (TMState.mk (s.tasks.set j TaskStatus.running) j) ∧
      s.tasks.getD j TaskStatus.unInit = TaskStatus.ready ∧
      s.tasks.getD j TaskStatus.unInit ≠ TaskStatus.exited) ∧
    (find_next_task s = none → run_next_task s = .shutdownClean) := by
  refine ⟨?_, ?_, ?_, ?_⟩
  · rw [find_next_task, find?_eq_some_char]
    constructor
    · rintro ⟨i, hget, hpj, hmin⟩
      have hilt : i < s.tasks.length := by
        by_contra hc
        rw [scan_get?_none _ _ _ hc] at hget
        cases hget
      rw [scan_get? _ _ _ hilt] at hget
      have hj : j = (s.current_task + 1 + i) % s.tasks.length := by
        cases hget; rfl
      refine ⟨i, hilt, hj, by simpa using hpj, ?_⟩
      intro e he
      have := hmin e (by omega) ((s.current_task + 1 + e) % s.tasks.length)
        (scan_get? _ _ _ (by omega))
      simpa using this
    · rintro ⟨d, hd, hj, hready, hmin⟩
      refine ⟨d, ?_, by simpa using hready, ?_⟩
      · rw [scan_get? _ _ _ hd, hj]
      · intro k hk y hy
        rw [scan_get? _ _ _ (by omega)] at hy
        have hy' : y = (s.current_task + 1 + k) % s.tasks.length := by
          cases hy; rfl
        subst hy'
        simpa using hmin k hk
  · rw [find_next_task, List.find?_eq_none]
    constructor
    · intro hall i hi hready
      obtain ⟨d, hd, hdi⟩ := mod_cover s.current_task s.tasks.length i hn hi
      have hmem : i ∈ (List.range' (s.current_task + 1) s.tasks.length).map
          (fun a => a % s.tasks.length) := by
        rw [← hdi]
        exact List.mem_map.mpr ⟨s.current_task + 1 + d,
          List.mem_range'_1.mpr ⟨by omega, by omega⟩, rfl⟩
      have := hall i hmem
      rw [List.getD_eq_getElem?_getD] at hready
      simp [hready] at this
    · intro hall x hmem
      obtain ⟨a, hamem, hax⟩ := List.mem_map.mp hmem
      have hxlt : x < s.tasks.length := by
        rw [← hax]
        exact Nat.mod_lt _ hn
      simpa using hall x hxlt
  · intro hfind
    refine ⟨?_, ?_, ?_⟩
    · rw [run_next_task, hfind]
    · have := List.find?_some hfind
      simpa using this
    · have := List.find?_some hfind
      simp at this
      rw [List.getD_eq_getElem?_getD, this]
      intro hcon
      cases hcon
  · intro hfind
    rw [run_next_task, hfind]

/-- C6, witness: the table `[Exited, Ready, Ready]` with `current = 0`:
the scan chooses task 1 (skipping nothing, in id order), marks it Running
and sets `current` to 1. -/
theorem C6_witness :
    find_next_task (TMState.mk [TaskStatus.exited, TaskStatus.ready, TaskStatus.ready] 0) =
      some 1 ∧
    run_next_task (TMState.mk [TaskStatus.exited, TaskStatus.ready, TaskStatus.ready] 0) =
      .switched (TMState.mk [TaskStatus.exited, TaskStatus.running, TaskStatus.ready] 1) := by
  have h := C6_scheduler
    (s := TMState.mk [TaskStatus.exited, TaskStatus.ready, TaskStatus.ready] 0)
    (by norm_num) 1
  have hfind : find_next_task
      (TMState.mk [TaskStatus.exited, TaskStatus.ready, TaskStatus.ready] 0) = some 1 := by
    rw [(h.1)]
    refine ⟨0, by norm_num, by norm_num, by decide, by omega⟩
  exact ⟨hfind, ((h.2.2.1) hfind).1⟩

theorem getD_set_eq {α : Type} (l : List α) (i : Nat) (a d : α) (h : i < l.length) :
    (l.set i a).getD i d = a := by
  rw [List.getD_eq_getElem?_getD, List.getElem?_set_self]
  · simp
  · exact h

theorem getD_set_ne {α : Type} (l : List α) {i j : Nat} (a d : α) (h : j ≠ i) :
    (l.set i a).getD j d = l.getD j d := by
  rw [List.getD_eq_getElem?_getD, List.getElem?_set_ne (by omega),
    ← List.getD_eq_getElem?_getD]

theorem getD_replicate {α : Type} (n i : Nat) (x d : α) (h : i < n) :
    (List.replicate n x).getD i d = x := by
  rw [List.getD_eq_getElem?_getD, List.getElem?_replicate]
  simp [h]

theorem find_next_lt {s : TMState} (hn : 0 < s.tasks.length) {j : Nat}
    (h : find_next_task s = some j) : j < s.tasks.length := by
  have hmem := List.mem_of_find?_eq_some h
  obtain ⟨a, _, hax⟩ := List.mem_map.mp hmem
  rw [← hax]
  exact Nat.mod_lt _ hn

/-- The scheduler invariant: table size fixed, `current` in range, every
Running task is the current one (hence at most one Running), no task is
ever `UnInit`. -/
def TMInv (n : Nat) (s : TMState) : Prop :=
  s.tasks.length = n ∧ s.current_task < n ∧
  (∀ i, s.tasks.getD i TaskStatus.unInit = TaskStatus.running → i = s.current_task) ∧
  (∀ i, i < n → s.tasks.getD i TaskStatus.unInit ≠ TaskStatus.unInit)

theorem tm_step_preserves {n : Nat} {s s' : TMState} (st : TaskStatus)
    (hst : st = TaskStatus.ready ∨ st = TaskStatus.exited)
    (ih : TMInv n s)
    (hrun : run_next_task (mark_current s st) = .switched s') : TMInv n s' := by
  obtain ⟨hlen, hcur, hrunn, hnou⟩ := ih
  have hn : 0 < n := by omega
  have hlen1 : (mark_current s st).tasks.length = n := by
    simp [mark_current, hlen]
  rcases hfind : find_next_task (mark_current s st) with _ | next
  · rw [run_next_task, hfind] at hrun
    cases hrun
  · rw [run_next_task, hfind] at hrun
    have hnext : next < n := by
      have := find_next_lt (by omega) hfind
      omega
    cases hrun
    refine ⟨by simp [mark_current, hlen], hnext, ?_, ?_⟩
    · intro i hi
      by_cases hin : i = next
      · simpa using hin
      · exfalso
        rw [show (mark_current s st).tasks = s.tasks.set s.current_task st from rfl] at hi
        rw [getD_set_ne _ _ _ hin] at hi
        by_cases hic : i = s.current_task
        · rw [hic, getD_set_eq _ _ _ _ (by omega)] at hi
          rcases hst with rfl | rfl <;> cases hi
        · rw [getD_set_ne _ _ _ hic] at hi
          exact hic (hrunn i hi)
    · intro i hilt
      by_cases hin : i = next
      · subst hin
        rw [getD_set_eq _ _ _ _ (by simpa [mark_current, hlen] using hnext)]
        intro hcon
        cases hcon
      · rw [getD_set_ne _ _ _ hin]
        rw [show (mark_current s st).tasks = s.tasks.set s.current_task st from rfl]
        by_cases hic : i = s.current_task
        · rw [hic, getD_set_eq _ _ _ _ (by omega)]
          rcases hst with rfl | rfl <;> (intro hcon; cases hcon)
        · rw [getD_set_ne _ _ _ hic]
          exact hnou i hilt

/-- C10: every state of the task manager reachable from the boot table via
`run_first_task`, `suspend_current_and_run_next` and
`exit_current_and_run_next` has at most one Running task, any Running task
is `tasks[current_task]`, and no task ever has status `UnInit`. -/
theorem C10_scheduler_invariant {n : Nat} {s : TMState} (hn : 0 < n)
    (h : TMReach n s) :
    s.tasks.length = n ∧ s.current_task < n ∧
    (∀ i, s.tasks.getD i TaskStatus.unInit = TaskStatus.running →
      i = s.current_task) ∧
    (∀ i j, s.tasks.getD i TaskStatus.unInit = TaskStatus.running →
      s.tasks.getD j TaskStatus.unInit = TaskStatus.running → i = j) ∧
    (∀ i, i < n → s.tasks.getD i TaskStatus.unInit ≠ TaskStatus.unInit) := by
  have hinv : TMInv n s := by
    induction h with
    | start =>
      refine ⟨by simp [run_first_task, initTasks], by simp [run_first_task, initTasks, hn], ?_, ?_⟩
      · intro i hi
        by_cases hi0 : i = 0
        · simpa [run_first_task, initTasks] using hi0
        · exfalso
          rw [show (run_first_task (initTasks n)).tasks =
            (List.replicate n TaskStatus.ready).set 0 TaskStatus.running from rfl] at hi
          rw [getD_set_ne _ _ _ hi0] at hi
          by_cases hilt : i < n
          · rw [getD_replicate _ _ _ _ hilt] at hi
            cases hi
          · rw [List.getD_eq_getElem?_getD, List.getElem?_eq_none (by simpa using hilt)] at hi
            cases hi
      · intro i hilt
        rw [show (run_first_task (initTasks n)).tasks =
          (List.replicate n TaskStatus.ready).set 0 TaskStatus.running from rfl]
        by_cases hi0 : i = 0
        · subst hi0
          rw [getD_set_eq _ _ _ _ (by simpa using hn)]
          intro hcon; cases hcon
        · rw [getD_set_ne _ _ _ hi0, getD_replicate _ _ _ _ hilt]
          intro hcon; cases hcon
    | suspend hr hs ih => exact tm_step_preserves _ (Or.inl rfl) ih hs
    | exit hr hs ih => exact tm_step_preserves _ (Or.inr rfl) ih hs
  obtain ⟨h1, h2, h3, h4⟩ := hinv
  exact ⟨h1, h2, h3, fun i j hi hj => by rw [h3 i hi, h3 j hj], h4⟩

/-- C10, witness: the invariant at the boot state of a two-task table
after `run_first_task`. -/
theorem C10_witness :
    (run_first_task (initTasks 2)).current_task < 2 ∧
    (run_first_task (initTasks 2)).tasks.getD 1 TaskStatus.unInit ≠ TaskStatus.unInit := by
  have h := C10_scheduler_invariant (by norm_num) (TMReach.start (n := 2))
  exact ⟨h.2.1, h.2.2.2.2 1 (by norm_num)⟩

/-! ## Trap dispatch (`trap/mod.rs`) — claim C2 -/

/-- The trap causes distinguished by `trap_handler`'s match (the page-fault
variants are *not* matched by name and fall into the wildcard arm). -/
inductive TrapCause where
  | supervisorTimer
  | userEnvCall
  | storeFault
  | loadFault
  | storePageFault
  | loadPageFault
  | illegalInstruction
  | otherTrap
  deriving DecidableEq

/-- What the handler does for a cause.  `exitAndRunNext` is the action the
spec prescribes for task-fatal causes (`exit_current_and_run_next`); the
code never produces it. -/
inductive TrapAction where
  | setTimerAndSuspend
  | syscallAndReturn
  | exitAndRunNext
  | panicKernel (msg : String)
  deriving DecidableEq

/-- `trap_handler`'s dispatch (`trap/mod.rs` lines 68-103):
`SupervisorTimer` re-arms the timer and suspends; `UserEnvCall` advances
`sepc` and runs the syscall; `StoreFault | LoadFault` and
`IllegalInstruction` log "kernel killed it" and then
`panic!("[kernel] Cannot continue!")`; everything else — including
`StorePageFault` and `LoadPageFault`, which the match does not name —
panics "Unsupported trap". -/
def trap_handler_dispatch : TrapCause → TrapAction
  | .supervisorTimer => .setTimerAndSuspend
  | .userEnvCall => .syscallAndReturn
  | .storeFault => .panicKernel "[kernel] Cannot continue!"
  | .loadFault => .panicKernel "[kernel] Cannot continue!"
  | .illegalInstruction => .panicKernel "[kernel] Cannot continue!"
  | .storePageFault => .panicKernel "Unsupported trap"
  | .loadPageFault => .panicKernel "Unsupported trap"
  | .otherTrap => .panicKernel "Unsupported trap"

/-- C2: the claim says a user-mode load/store fault, load/store page fault
or illegal instruction marks the current task Exited and schedules the next
Ready task without panicking.  The handler instead panics on every one of
these causes: `StoreFault`/`LoadFault`/`IllegalInstruction` hit
`panic!("[kernel] Cannot continue!")` (directly contradicting the
"kernel killed it" log line just before), and the page-fault variants are
not even matched — they hit the "Unsupported trap" wildcard panic.
`exit_current_and_run_next` is never called on any of these paths. -/
theorem C2_fault_paths_panic :
    trap_handler_dispatch .storeFault = .panicKernel "[kernel] Cannot continue!" ∧
    trap_handler_dispatch .loadFault = .panicKernel "[kernel] Cannot continue!" ∧
    trap_handler_dispatch .illegalInstruction =
      .panicKernel "[kernel] Cannot continue!" ∧
    trap_handler_dispatch .storePageFault = .panicKernel "Unsupported trap" ∧
    trap_handler_dispatch .loadPageFault = .panicKernel "Unsupported trap" ∧
    trap_handler_dispatch .storeFault ≠ .exitAndRunNext ∧
    trap_handler_dispatch .loadFault ≠ .exitAndRunNext ∧
    trap_handler_dispatch .storePageFault ≠ .exitAndRunNext ∧
    trap_handler_dispatch .loadPageFault ≠ .exitAndRunNext ∧
    trap_handler_dispatch .illegalInstruction ≠ .exitAndRunNext := by
  decide

/-! ## `sys_write` (`syscall/fs.rs`) — claim C3 -/

/-- A UTF-8 continuation byte (`10xxxxxx`). -/
def utf8Cont (b : Nat) : Bool := decide (0x80 ≤ b ∧ b ≤ 0xBF)

/-- UTF-8 validity of a byte sequence, as checked by
`core::str::from_utf8` (RFC 3629: no overlong forms, no surrogates,
nothing above U+10FFFF). -/
def utf8Valid : List Nat → Bool
  | [] => true
  | b :: rest =>
    if b < 0x80 then utf8Valid rest
    else if b < 0xC2 then false
    else if b ≤ 0xDF then
      match rest with
      | c1 :: r => utf8Cont c1 && utf8Valid r
      | [] => false
    else if b ≤ 0xEF then
      match rest with
      | c1 :: c2 :: r =>
        (if b = 0xE0 then decide (0xA0 ≤ c1 ∧ c1 ≤ 0xBF)
         else if b = 0xED then decide (0x80 ≤ c1 ∧ c1 ≤ 0x9F)
         else utf8Cont c1) && utf8Cont c2 && utf8Valid r
      | _ => false
    else if b ≤ 0xF4 then
      match rest with
      | c1 :: c2 :: c3 :: r =>
        (if b = 0xF0 then decide (0x90 ≤ c1 ∧ c1 ≤ 0xBF)
         else if b = 0xF4 then decide (0x80 ≤ c1 ∧ c1 ≤ 0x8F)
         else utf8Cont c1) && utf8Cont c2 && utf8Cont c3 && utf8Valid r
      | _ => false
    else false

/-- Result of `sys_write`. -/
inductive SysWriteResult where
  | ok (written : List Nat) (ret : Int)
  | panicked (msg : String)
  deriving DecidableEq

/-- `sys_write(fd, buf, len)` (`syscall/fs.rs`): the `len` bytes at `buf`
are passed as the list `bytes`.  For `fd = FD_STDOUT = 1` the code builds
the slice, requires it to be valid UTF-8 (`from_utf8(..).expect(..)` —
panic otherwise), prints exactly those bytes to the console and returns
`len as isize`.  Every other fd hits
`panic!("Unsupported fd in sys_write!")`. -/
def sys_write (fd : Nat) (bytes : List Nat) : SysWriteResult :=
  if fd = 1 then
    if utf8Valid bytes then .ok bytes (Int.ofNat bytes.length)
    else .panicked "invalid UTF-8 encoding"
  else .panicked "Unsupported fd in sys_write!"

/-- C3, counterexample: the claim says `sys_write(fd, ..)` returns -1 for
every fd ≠ 1 without panicking, and writes exactly the buffer for fd = 1.
The code panics for fd = 2 (so it does not return -1), and even for
fd = 1 it panics when the buffer (here the single byte 0xFF) is not valid
UTF-8. -/
theorem C3_counterexample :
    sys_write 2 [72] = .panicked "Unsupported fd in sys_write!" ∧
    sys_write 2 [72] ≠ .ok [] (-1) ∧
    sys_write 1 [255] = .panicked "invalid UTF-8 encoding" := by
  refine ⟨rfl, ?_, rfl⟩
  decide

/-- C3 (amended): for `fd = 1` and a buffer that is valid UTF-8 the kernel
writes exactly the `len` bytes at `buf` to the console and returns `len`;
for `fd = 1` and invalid UTF-8 it panics; for every other fd it panics
("Unsupported fd in sys_write!") instead of returning -1. -/
theorem C3_sys_write_behaviour (fd : Nat) (bytes : List Nat) :
    (fd = 1 → utf8Valid bytes = true →
      sys_write fd bytes = .ok bytes (Int.ofNat bytes.length)) ∧
    (fd = 1 → utf8Valid bytes = false →
      sys_write fd bytes = .panicked "invalid UTF-8 encoding") ∧
    (fd ≠ 1 → sys_write fd bytes = .panicked "Unsupported fd in sys_write!") := by
  refine ⟨?_, ?_, ?_⟩
  · intro h1 h2
    simp [sys_write, h1, h2]
  · intro h1 h2
    simp [sys_write, h1, h2]
  · intro h1
    simp [sys_write, h1]

/-- C3, witness: `sys_write(1, "Hi")` writes the two bytes and returns 2;
`sys_write(2, ..)` panics. -/
theorem C3_witness :
    sys_write 1 [72, 105] = .ok [72, 105] 2 ∧
    sys_write 2 [72] = .panicked "Unsupported fd in sys_write!" :=
  ⟨(C3_sys_write_behaviour 1 [72, 105]).1 rfl (by decide),
   (C3_sys_write_behaviour 2 [72]).2.2 (by decide)⟩

/-! ## `translated_byte_buffer` (`mm/page_table.rs` lines 73-101) — claim C1 -/

/-- `page_table.translate(vpn).expect("cannot translate page").ppn()`:
the PPN of the leaf PTE at `vpn`, panicking (`none`) when the walk fails. -/
def tbbTranslate (pt : PT) (vpn : Nat) : Option Nat :=
  match translate pt vpn with
  | some e => some (ptePpn e)
  | none => none

/-- The loop of `translated_byte_buffer`, with explicit fuel (`none` both
on translation panic and on fuel exhaustion — the Rust loop would still be
running).  Each produced slice is `(ppn, slice_start, slice_end)`: the
bytes `[slice_start, slice_end)` of the frame `ppn`.  Transcribed line by
line: note `va` is computed from `start_addr`, NOT from `current`
(`let va = VirtAddr::from(start_addr)` inside the loop), `slice_start`
uses `saturating_sub` (Nat subtraction), and the cursor update is
`current = page_start + slice_end`. -/
def tbbLoop (tr : Nat → Option Nat) (start_addr end_addr : Nat) :
    Nat → Nat → Option (List (Nat × Nat × Nat))
  | _, 0 => none
  | current, fuel + 1 =>
    if current < end_addr then
      let va := virtAddrFrom start_addr
      let vpn := vaFloor va
      match tr vpn with
      | none => none
      | some ppn =>
        let page_start := vpn * PAGE_SIZE
        let page_end := page_start + PAGE_SIZE
        let slice_start := current - page_start
        let slice_end := if end_addr < page_end then end_addr - page_start
                         else PAGE_SIZE
        match tbbLoop tr start_addr end_addr (page_start + slice_end) fuel with
        | none => none
        | some rest => some ((ppn, slice_start, slice_end) :: rest)
    else some []

/-- `PageTable::translated_byte_buffer(satp, ptr, len)` on the page table
`pt` (the non-owning table built from the token). -/
def translated_byte_buffer (pt : PT) (ptr len fuel : Nat) :
    Option (List (Nat × Nat × Nat)) :=
  tbbLoop (tbbTranslate pt) ptr (ptr + len) ptr fuel

/-- A table with virtual pages 1 and 2 mapped (to frames 100 and 200). -/
def c1Pt : PT :=
  match ptMap (ptNew 0) 1 100 flagR with
  | some pt1 =>
    match ptMap pt1 2 200 flagR with
    | some pt2 => pt2
    | none => ptNew 0
  | none => ptNew 0

theorem c1_tr1 : tbbTranslate c1Pt 1 = some 100 := by decide

theorem c1_stuck (fuel : Nat) :
    tbbLoop (tbbTranslate c1Pt) 4096 12288 8192 fuel = none := by
  induction fuel with
  | zero => rfl
  | succ k ih =>
    show (if (8192 : Nat) < 12288 then _ else _) = _
    rw [if_pos (by norm_num)]
    show (match tbbTranslate c1Pt (vaFloor (virtAddrFrom 4096)) with
      | none => none
      | some ppn => _) = _
    have hva : vaFloor (virtAddrFrom 4096) = 1 := by decide
    rw [hva, c1_tr1]
    show (match tbbLoop (tbbTranslate c1Pt) 4096 12288
        (1 * PAGE_SIZE + if (12288 : Nat) < 1 * PAGE_SIZE + PAGE_SIZE
          then 12288 - 1 * PAGE_SIZE else PAGE_SIZE) k with
      | none => none
      | some rest => some ((100, 8192 - 1 * PAGE_SIZE,
          if (12288 : Nat) < 1 * PAGE_SIZE + PAGE_SIZE
            then 12288 - 1 * PAGE_SIZE else PAGE_SIZE) :: rest)) = none
    have harg : (1 * PAGE_SIZE + if (12288 : Nat) < 1 * PAGE_SIZE + PAGE_SIZE
        then 12288 - 1 * PAGE_SIZE else PAGE_SIZE) = 8192 := by
      norm_num [PAGE_SIZE]
    rw [harg, ih]

/-- C1: the claim says that whenever every page of `[ptr, ptr+len)` is
mapped and `len > 0`, `translated_byte_buffer(token, ptr, len)` terminates
with slices covering exactly the `len` bytes, split at page boundaries.
On the table with pages 1 and 2 both mapped, the call with
`ptr = 0x1000, len = 0x2000` (exactly those two pages) never terminates:
the loop recomputes `vpn` from `start_addr` instead of `current`, so after
the first page the cursor sticks at the first page boundary forever (for
every fuel bound the loop is still running).  A buffer inside a single
page does come out right — one slice of exactly `len` bytes at the right
offset — which is the intended semantics the spec states. -/
theorem C1_translated_byte_buffer_hangs :
    tbbTranslate c1Pt 1 = some 100 ∧
    tbbTranslate c1Pt 2 = some 200 ∧
    (0 : Nat) < 8192 ∧
    (∀ fuel, translated_byte_buffer c1Pt 4096 8192 fuel = none) ∧
    translated_byte_buffer c1Pt 4224 256 2 = some [(100, 128, 384)] := by
  refine ⟨by decide, by decide, by norm_num, ?_, by decide⟩
  intro fuel
  cases fuel with
  | zero => rfl
  | succ k =>
    show tbbLoop (tbbTranslate c1Pt) 4096 12288 4096 (k + 1) = none
    show (if (4096 : Nat) < 12288 then _ else _) = _
    rw [if_pos (by norm_num)]
    show (match tbbTranslate c1Pt (vaFloor (virtAddrFrom 4096)) with
      | none => none
      | some ppn => _) = _
    have hva : vaFloor (virtAddrFrom 4096) = 1 := by decide
    rw [hva, c1_tr1]
    show (match tbbLoop (tbbTranslate c1Pt) 4096 12288
        (1 * PAGE_SIZE + if (12288 : Nat) < 1 * PAGE_SIZE + PAGE_SIZE
          then 12288 - 1 * PAGE_SIZE else PAGE_SIZE) k with
      | none => none
      | some rest => some ((100, 4096 - 1 * PAGE_SIZE,
          if (12288 : Nat) < 1 * PAGE_SIZE + PAGE_SIZE
            then 12288 - 1 * PAGE_SIZE else PAGE_SIZE) :: rest)) = none
    have harg : (1 * PAGE_SIZE + if (12288 : Nat) < 1 * PAGE_SIZE + PAGE_SIZE
        then 12288 - 1 * PAGE_SIZE else PAGE_SIZE) = 8192 := by
      norm_num [PAGE_SIZE]
    rw [harg, c1_stuck k]

/-! ## `MemorySet::from_elf` (`mm/memory_set.rs` lines 156-232) — claim C9 -/

/-- `From<usize> for PhysAddr`: mask to the low 56 bits (`mm/address.rs`). -/
def physAddrFrom (v : Nat) : Nat := v % 2 ^ 56

/-- `PhysAddr::floor`. -/
def paFloor (pa : Nat) : Nat := pa / PAGE_SIZE

/-- `MapArea::map_one` for a `Framed` page (`mm/memory_set.rs` lines
342-356): allocate a (zeroed) data frame from the global allocator — in
the model the next `fresh` frame — and `page_table.map(vpn, ppn, perm)`. -/
def mapOne (pt : PT) (vpn perm : Nat) : Option PT :=
  ptMap (PT.mk pt.root_ppn (pt.fresh + 1) pt.mem) vpn pt.fresh perm

/-- `MapArea::map` for a `Framed` area over the ascending VPN range
`[svpn, svpn + n)` (`mm/memory_set.rs` lines 319-323 with the
`VPNRangeIterator`). -/
def mapAreaVpns (pt : PT) (svpn n perm : Nat) : Option PT :=
  match n with
  | 0 => some pt
  | k + 1 =>
    match mapOne pt svpn perm with
    | some pt' => mapAreaVpns pt' (svpn + 1) k perm
    | none => none

/-- The `for_each` over LOAD segments in `from_elf`: each segment
`(start_va, end_va, rwx)` becomes a `Framed` area over
`[floor(start_va), ceil(end_va))` with permissions `U | rwx`
(`elf_segment_perm` always sets `U`), and `max_end_vpn` is overwritten
with the area's `vpn_range.end` on every iteration.  The byte copy
(`write_bytes`) writes ELF data into the data frames; it reads the
translations just installed and touches no page-table node, so it does not
appear in the PTE-memory state. -/
def mapSegs (pt : PT) (maxEnd : Nat) :
    List (Nat × Nat × Nat) → Option (PT × Nat)
  | [] => some (pt, maxEnd)
  | (sa, ea, rwx) :: rest =>
    let sv := vaFloor (virtAddrFrom sa)
    let ev := vaCeil (virtAddrFrom ea)
    match mapAreaVpns pt sv (ev - sv) (flagU ||| rwx) with
    | some pt' => mapSegs pt' ev rest
    | none => none

/-- The value `max_end_vpn` holds after the segment loop. -/
def segsMaxEnd (m0 : Nat) : List (Nat × Nat × Nat) → Nat
  | [] => m0
  | (_, ea, _) :: rest => segsMaxEnd (vaCeil (virtAddrFrom ea)) rest

/-- Total number of pages the segment areas cover. -/
def segsPages : List (Nat × Nat × Nat) → Nat
  | [] => 0
  | (sa, ea, _) :: rest =>
    (vaCeil (virtAddrFrom ea) - vaFloor (virtAddrFrom sa)) + segsPages rest

/-- `MemorySet::from_elf`, restricted to its page-table effect and the
returned user stack top.  `r` is the root frame `PageTable::new` receives,
`s_tramp` the address of `strampoline`, `segs` the LOAD program headers as
`(virtual_addr, virtual_addr + mem_size, rwx-permission-bits)`.  In order:
`map_trampoline` (`R|X`, direct map, no data frame); the segment loop; the
user stack — `user_stack_bottom = max_end_vpn.get_first_addr() + PAGE_SIZE`
(one guard page), `user_stack_top = bottom + USER_STACK_SIZE`, `Framed`
`R|W|U`; the trap-context page `[TRAP_CONTEXT_ADDR, TRAMPOLINE_ADDR)`,
`Framed` `R|W`.  Returns the table and `user_stack_top`. -/
def from_elf_model (r s_tramp : Nat) (segs : List (Nat × Nat × Nat)) :
    Option (PT × Nat) :=
  match ptMap (ptNew r) (vaFloor (virtAddrFrom TRAMPOLINE_ADDR))
      (paFloor (physAddrFrom s_tramp)) (flagR ||| flagX) with
  | none => none
  | some pt1 =>
    match mapSegs pt1 0 segs with
    | none => none
    | some (pt2, maxEnd) =>
      let usb := maxEnd * PAGE_SIZE + PAGE_SIZE
      let ust := virtAddrFrom (usb + USER_STACK_SIZE)
      match mapAreaVpns pt2 (vaFloor usb) (vaCeil ust - vaFloor usb)
          (flagR ||| flagW ||| flagU) with
      | none => none
      | some pt3 =>
        match mapAreaVpns pt3 (vaFloor (virtAddrFrom TRAP_CONTEXT_ADDR))
            (vaCeil (virtAddrFrom TRAMPOLINE_ADDR) -
              vaFloor (virtAddrFrom TRAP_CONTEXT_ADDR)) (flagR ||| flagW) with
        | none => none
        | some pt4 => some (pt4, ust)

/-- Flags-level abstraction of the observable mapping: `F v = none` means
VPN `v` is unmapped (no valid leaf), `F v = some fl` means `v` is mapped
by a valid leaf with flag byte `fl` (and some frame). -/
def FlagsAbs (pt : PT) (F : Nat → Option Nat) : Prop :=
  ∀ v, v < 2 ^ 27 →
    (F v = none → vt pt.root_ppn pt.mem v = none) ∧
    (∀ fl, F v = some fl → ∃ p, vt pt.root_ppn pt.mem v = some (mkPTE p fl))

theorem PTInv_fresh_le {r F : Nat} {m : Nat → Nat → Nat} {T1 T2 : List Nat}
    (inv : PTInv r F m T1 T2) {F' : Nat} (h : F ≤ F') : PTInv r F' m T1 T2 := by
  refine ⟨by have := inv.root_lt; omega,
    fun f hf => by have := inv.t1_lt f hf; omega,
    fun f hf => by have := inv.t2_lt f hf; omega,
    inv.disj12, inv.root_nt1, inv.root_nt2,
    fun f hf i => inv.unalloc f (by omega) i,
    inv.root_entries, inv.t1_entries, inv.root_inj, inv.t1_inj⟩

theorem flagsAbs_ptNew (r : Nat) : FlagsAbs (ptNew r) (fun _ => none) := by
  intro v hv
  refine ⟨fun _ => ?_, fun fl hfl => by cases hfl⟩
  rw [show (ptNew r).root_ppn = r from rfl, show (ptNew r).mem = fun _ _ => 0 from rfl]
  unfold vt
  simp [pteValid]

/-- `map` at the abstraction level: mapping an unmapped VPN updates the
flags map pointwise and preserves everything else. -/
theorem ptMap_abs {pt : PT} {T1 T2 : List Nat} {F : Nat → Option Nat}
    (inv : PTInv pt.root_ppn pt.fresh pt.mem T1 T2) (habs : FlagsAbs pt F)
    {vpn : Nat} (p perm : Nat) (hv : vpn < 2 ^ 27) (hperm : perm < 256)
    (hnone : F vpn = none) (hb : pt.fresh + 2 ≤ 2 ^ 44) :
    ∃ pt' T1' T2',
      ptMap pt vpn p perm = some pt' ∧
      PTInv pt'.root_ppn pt'.fresh pt'.mem T1' T2' ∧
      pt'.root_ppn = pt.root_ppn ∧
      pt.fresh ≤ pt'.fresh ∧ pt'.fresh ≤ pt.fresh + 2 ∧
      FlagsAbs pt' (Function.update F vpn (some (perm ||| 1))) := by
  have hvtnone : vt pt.root_ppn pt.mem vpn = none := (habs vpn hv).1 hnone
  obtain ⟨pt', T1', T2', hmap, inv', hroot, hle1, hle2, _, hvt, hother⟩ :=
    ptMap_spec inv hb p perm hperm hvtnone
  refine ⟨pt', T1', T2', hmap, inv', hroot, hle1, hle2, ?_⟩
  intro w hw
  by_cases hwv : w = vpn
  · subst hwv
    refine ⟨fun hFn => ?_, fun fl hfl => ?_⟩
    · rw [Function.update_same] at hFn
      cases hFn
    · rw [Function.update_same] at hfl
      cases hfl
      exact ⟨p, by rw [hroot] at hvt ⊢; exact hvt⟩
  · have hns : ¬ sameIdx w vpn := fun hsi => hwv (sameIdx_of_lt w vpn hw hv hsi)
    have heq : vt pt'.root_ppn pt'.mem w = vt pt.root_ppn pt.mem w := hother w hns
    rw [Function.update_noteq hwv]
    refine ⟨fun hFn => ?_, fun fl hfl => ?_⟩
    · rw [heq]
      exact (habs w hw).1 hFn
    · obtain ⟨q, hq⟩ := (habs w hw).2 fl hfl
      exact ⟨q, by rw [heq]; exact hq⟩

/-- `map_one` at the abstraction level (a data frame is drawn from the
allocator first, so `fresh` can grow by up to 3). -/
theorem mapOne_abs {pt : PT} {T1 T2 : List Nat} {F : Nat → Option Nat}
    (inv : PTInv pt.root_ppn pt.fresh pt.mem T1 T2) (habs : FlagsAbs pt F)
    {vpn : Nat} (perm : Nat) (hv : vpn < 2 ^ 27) (hperm : perm < 256)
    (hnone : F vpn = none) (hb : pt.fresh + 3 ≤ 2 ^ 44) :
    ∃ pt' T1' T2',
      mapOne pt vpn perm = some pt' ∧
      PTInv pt'.root_ppn pt'.fresh pt'.mem T1' T2' ∧
      pt'.root_ppn = pt.root_ppn ∧
      pt.fresh ≤ pt'.fresh ∧ pt'.fresh ≤ pt.fresh + 3 ∧
      FlagsAbs pt' (Function.update F vpn (some (perm ||| 1))) := by
  have inv1 : PTInv (PT.mk pt.root_ppn (pt.fresh + 1) pt.mem).root_ppn
      (PT.mk pt.root_ppn (pt.fresh + 1) pt.mem).fresh
      (PT.mk pt.root_ppn (pt.fresh + 1) pt.mem).mem T1 T2 :=
    PTInv_fresh_le inv (by show pt.fresh ≤ pt.fresh + 1; omega)
  have habs1 : FlagsAbs (PT.mk pt.root_ppn (pt.fresh + 1) pt.mem) F := habs
  have hb1 : (PT.mk pt.root_ppn (pt.fresh + 1) pt.mem).fresh + 2 ≤ 2 ^ 44 := by
    show pt.fresh + 1 + 2 ≤ 2 ^ 44
    omega
  obtain ⟨pt', T1', T2', hmap, inv', hroot, hle1, hle2, habs'⟩ :=
    ptMap_abs inv1 habs1 pt.fresh perm hv hperm hnone hb1
  have hle1' : pt.fresh + 1 ≤ pt'.fresh := hle1
  have hle2' : pt'.fresh ≤ pt.fresh + 1 + 2 := hle2
  have hroot' : pt'.root_ppn = pt.root_ppn := hroot
  refine ⟨pt', T1', T2', hmap, inv', hroot', by omega, by omega, habs'⟩

/-- Pointwise range update of a flags map. -/
def updRange (F : Nat → Option Nat) (svpn n : Nat) (y : Option Nat) :
    Nat → Option Nat :=
  fun v => if svpn ≤ v ∧ v < svpn + n then y else F v

/-- `MapArea::map` at the abstraction level: mapping an unmapped ascending
VPN range updates the flags map on exactly that range. -/
theorem mapAreaVpns_abs :
    ∀ (n : Nat) (pt : PT) (T1 T2 : List Nat) (F : Nat → Option Nat)
      (svpn perm : Nat),
      PTInv pt.root_ppn pt.fresh pt.mem T1 T2 → FlagsAbs pt F →
      (∀ k, k < n → svpn + k < 2 ^ 27 ∧ F (svpn + k) = none) →
      perm < 256 → pt.fresh + 3 * n ≤ 2 ^ 44 →
      ∃ pt' T1' T2',
        mapAreaVpns pt svpn n perm = some pt' ∧
        PTInv pt'.root_ppn pt'.fresh pt'.mem T1' T2' ∧
        pt'.root_ppn = pt.root_ppn ∧
        pt.fresh ≤ pt'.fresh ∧ pt'.fresh ≤ pt.fresh + 3 * n ∧
        FlagsAbs pt' (updRange F svpn n (some (perm ||| 1))) := by
  intro n
  induction n with
  | zero =>
    intro pt T1 T2 F svpn perm inv habs hpre hperm hb
    refine ⟨pt, T1, T2, rfl, inv, rfl, le_refl _, by omega, ?_⟩
    intro v hv
    have : updRange F svpn 0 (some (perm ||| 1)) v = F v := by
      unfold updRange
      rw [if_neg (by omega)]
    rw [this]
    exact habs v hv
  | succ k ih =>
    intro pt T1 T2 F svpn perm inv habs hpre hperm hb
    obtain ⟨hv0, hF0⟩ := hpre 0 (by omega)
    simp only [Nat.add_zero] at hv0 hF0
    obtain ⟨pt1, T1', T2', hone, inv1, hroot1, hle1, hle2, habs1⟩ :=
      mapOne_abs inv habs perm hv0 hperm hF0 (by omega)
    obtain ⟨pt', T1'', T2'', hrest, inv', hroot', hle1', hle2', habs'⟩ :=
      ih pt1 T1' T2' (Function.update F svpn (some (perm ||| 1))) (svpn + 1) perm
        inv1 habs1
        (fun j hj => ⟨by have := (hpre (j + 1) (by omega)).1; omega, by
          rw [Function.update_noteq (by omega)]
          have := (hpre (j + 1) (by omega)).2
          rwa [show svpn + (j + 1) = svpn + 1 + j by omega] at this⟩)
        hperm (by omega)
    refine ⟨pt', T1'', T2'', ?_, inv', by rw [hroot', hroot1], by omega, by omega, ?_⟩
    · unfold mapAreaVpns
      rw [hone]
      exact hrest
    · intro v hv
      have heq : updRange (Function.update F svpn (some (perm ||| 1))) (svpn + 1) k
          (some (perm ||| 1)) v = updRange F svpn (k + 1) (some (perm ||| 1)) v := by
        unfold updRange
        by_cases hin : svpn + 1 ≤ v ∧ v < svpn + 1 + k
        · rw [if_pos hin, if_pos (by omega)]
        · rw [if_neg hin]
          by_cases hveq : v = svpn
          · subst hveq
            rw [Function.update_same, if_pos (by omega)]
          · rw [Function.update_noteq hveq]
            rw [if_neg (by omega)]
      rw [← heq]
      exact habs' v hv

/-- First VPN of a segment's area. -/
def segLo (s : Nat × Nat × Nat) : Nat := vaFloor (virtAddrFrom s.1)

/-- One-past-the-last VPN of a segment's area. -/
def segHi (s : Nat × Nat × Nat) : Nat := vaCeil (virtAddrFrom s.2.1)

theorem or_u_lt (rwx : Nat) (h : rwx < 16) : flagU ||| rwx < 256 := by
  have h32 : (16 : Nat) ||| rwx < 2 ^ 5 :=
    Nat.or_lt_two_pow (by norm_num) (by omega)
  show 16 ||| rwx < 256
  omega

/-- The segment loop at the abstraction level. -/
theorem mapSegs_abs :
    ∀ (segs : List (Nat × Nat × Nat)) (pt : PT) (T1 T2 : List Nat)
      (F : Nat → Option Nat) (m0 : Nat),
      PTInv pt.root_ppn pt.fresh pt.mem T1 T2 → FlagsAbs pt F →
      (∀ s ∈ segs, ∀ v, segLo s ≤ v → v < segHi s → v < 2 ^ 27 ∧ F v = none) →
      List.Pairwise (fun s t => segHi s ≤ segLo t ∨ segHi t ≤ segLo s) segs →
      (∀ s ∈ segs, s.2.2 < 16) →
      pt.fresh + 3 * segsPages segs ≤ 2 ^ 44 →
      ∃ pt' T1' T2' F',
        mapSegs pt m0 segs = some (pt', segsMaxEnd m0 segs) ∧
        PTInv pt'.root_ppn pt'.fresh pt'.mem T1' T2' ∧
        pt'.root_ppn = pt.root_ppn ∧
        pt.fresh ≤ pt'.fresh ∧ pt'.fresh ≤ pt.fresh + 3 * segsPages segs ∧
        FlagsAbs pt' F' ∧
        (∀ v, (∀ s ∈ segs, ¬(segLo s ≤ v ∧ v < segHi s)) → F' v = F v) := by
  intro segs
  induction segs with
  | nil =>
    intro pt T1 T2 F m0 inv habs hsegs hdisj hperm hb
    exact ⟨pt, T1, T2, F, rfl, inv, rfl, le_refl _, by simp [segsPages], habs,
      fun v _ => rfl⟩
  | cons s0 rest ih =>
    intro pt T1 T2 F m0 inv habs hsegs hdisj hperm hb
    obtain ⟨sa, ea, rwx⟩ := s0
    have hn : segsPages ((sa, ea, rwx) :: rest) =
        (segHi (sa, ea, rwx) - segLo (sa, ea, rwx)) + segsPages rest := rfl
    set lo := segLo (sa, ea, rwx) with hlo
    set hi := segHi (sa, ea, rwx) with hhi
    have hrwx : rwx < 16 := hperm (sa, ea, rwx) (List.mem_cons_self _ _)
    obtain ⟨pt1, T1', T2', harea, inv1, hroot1, hle1, hle2, habs1⟩ :=
      mapAreaVpns_abs (hi - lo) pt T1 T2 F lo (flagU ||| rwx) inv habs
        (fun k hk => by
          have := hsegs (sa, ea, rwx) (List.mem_cons_self _ _) (lo + k)
            (by omega) (by omega)
          exact this)
        (or_u_lt rwx hrwx) (by rw [hn] at hb; omega)
    obtain ⟨pt', T1'', T2'', F', hrest, inv', hroot', hle1', hle2', habs', hout⟩ :=
      ih pt1 T1' T2' (updRange F lo (hi - lo) (some (flagU ||| rwx ||| 1))) hi
        inv1 habs1
        (fun s hs v hv1 hv2 => by
          refine ⟨(hsegs s (List.mem_cons_of_mem _ hs) v hv1 hv2).1, ?_⟩
          have hdj := (List.pairwise_cons.mp hdisj).1 s hs
          unfold updRange
          rw [if_neg (by
            rcases hdj with hdj | hdj
            · intro hcon; omega
            · intro hcon; omega)]
          exact (hsegs s (List.mem_cons_of_mem _ hs) v hv1 hv2).2)
        (List.pairwise_cons.mp hdisj).2
        (fun s hs => hperm s (List.mem_cons_of_mem _ hs))
        (by rw [hn] at hb; omega)
    refine ⟨pt', T1'', T2'', F', ?_, inv', by rw [hroot', hroot1],
      by omega, by rw [hn]; omega, habs', ?_⟩
    · show (match mapAreaVpns pt lo (hi - lo) (flagU ||| rwx) with
        | some ptx => mapSegs ptx hi rest
        | none => none) = some (pt', segsMaxEnd hi rest)
      rw [harea]
      exact hrest
    · intro v hv
      have hv0 := hv (sa, ea, rwx) (List.mem_cons_self _ _)
      rw [hout v (fun s hs => hv s (List.mem_cons_of_mem _ hs))]
      unfold updRange
      rw [if_neg (by intro hcon; exact hv0 ⟨hcon.1, by omega⟩)]

/-- The observable mapping of VPN `v` in the address space `from_elf`
builds (`none` when `from_elf` panics). -/
def feVT (r s_tramp : Nat) (segs : List (Nat × Nat × Nat)) (v : Nat) : Option Nat :=
  match from_elf_model r s_tramp segs with
  | some (pt, _) => vt pt.root_ppn pt.mem v
  | none => none

/-- The flag byte of the (valid) leaf mapping VPN `v`, if any. -/
def feFlagsAt (r s_tramp : Nat) (segs : List (Nat × Nat × Nat)) (v : Nat) : Option Nat :=
  match feVT r s_tramp segs v with
  | some e => some (pteFlags e)
  | none => none

/-- The user-stack-top value `from_elf` returns. -/
def feStackTop (r s_tramp : Nat) (segs : List (Nat × Nat × Nat)) : Option Nat :=
  match from_elf_model r s_tramp segs with
  | some (_, u) => some u
  | none => none

theorem tramp_vpn_eq : vaFloor (virtAddrFrom TRAMPOLINE_ADDR) = 2 ^ 27 - 1 := by decide

theorem tc_vpn_eq : vaFloor (virtAddrFrom TRAP_CONTEXT_ADDR) = 2 ^ 27 - 2 := by decide

theorem tc_len_eq : vaCeil (virtAddrFrom TRAMPOLINE_ADDR) -
    vaFloor (virtAddrFrom TRAP_CONTEXT_ADDR) = 1 := by decide

theorem tc_len_eq' : vaCeil (virtAddrFrom TRAMPOLINE_ADDR) - (2 ^ 27 - 2) = 1 := by
  decide

set_option maxRecDepth 4000 in
theorem from_elf_aux (r s_tramp : Nat) (segs : List (Nat × Nat × Nat))
    (hsegL : ∀ s ∈ segs, segHi s ≤ segsMaxEnd 0 segs)
    (hdisj : List.Pairwise (fun s t => segHi s ≤ segLo t ∨ segHi t ≤ segLo s) segs)
    (hrwx : ∀ s ∈ segs, s.2.2 < 16)
    (hL : segsMaxEnd 0 segs + 3 < 2 ^ 27 - 2)
    (hfresh : r + 13 + 3 * segsPages segs ≤ 2 ^ 44) :
    ∃ pt4 F4,
      from_elf_model r s_tramp segs =
        some (pt4, (segsMaxEnd 0 segs + 1) * PAGE_SIZE + USER_STACK_SIZE) ∧
      FlagsAbs pt4 F4 ∧
      F4 (segsMaxEnd 0 segs) = none ∧
      (∀ k, k < 2 → F4 (segsMaxEnd 0 segs + 1 + k) =
        some (flagR ||| flagW ||| flagU ||| 1)) ∧
      F4 (2 ^ 27 - 2) = some (flagR ||| flagW ||| 1) := by
  set L := segsMaxEnd 0 segs with hLdef
  -- step 1: the trampoline map
  have inv0 : PTInv (ptNew r).root_ppn (ptNew r).fresh (ptNew r).mem [] [] :=
    ptNew_inv r
  obtain ⟨pt1, T11, T21, hmap1, inv1, hroot1, hf11, hf12, habs1⟩ :=
    @ptMap_abs (ptNew r) [] [] (fun _ => none) inv0 (flagsAbs_ptNew r)
      (vaFloor (virtAddrFrom TRAMPOLINE_ADDR)) (paFloor (physAddrFrom s_tramp))
      (flagR ||| flagX) (by rw [tramp_vpn_eq]; omega) (by decide) rfl
      (by show r + 1 + 2 ≤ 2 ^ 44; omega)
  have hfr1a : r + 1 ≤ pt1.fresh := hf11
  have hfr1b : pt1.fresh ≤ r + 1 + 2 := hf12
  -- step 2: the segment loop
  obtain ⟨pt2, T12, T22, F2, hmap2, inv2, hroot2, hf21, hf22, habs2, hout2⟩ :=
    mapSegs_abs segs pt1 T11 T21
      (Function.update (fun _ => none) (vaFloor (virtAddrFrom TRAMPOLINE_ADDR))
        (some (flagR ||| flagX ||| 1))) 0 inv1 habs1
      (fun s hs v hv1 hv2 => by
        have hvL : v < L := by have := hsegL s hs; omega
        refine ⟨by omega, ?_⟩
        rw [Function.update_noteq (by rw [tramp_vpn_eq]; omega)])
      hdisj hrwx (by omega)
  -- step 3: the user stack (two pages above the guard page)
  have husb_floor : vaFloor (L * PAGE_SIZE + PAGE_SIZE) = L + 1 := by
    unfold vaFloor PAGE_SIZE
    omega
  have hust_val : virtAddrFrom (L * PAGE_SIZE + PAGE_SIZE + USER_STACK_SIZE) =
      (L + 1) * PAGE_SIZE + USER_STACK_SIZE := by
    unfold virtAddrFrom PAGE_SIZE USER_STACK_SIZE
    have h27 : (2 : Nat) ^ 27 - 2 ≤ 2 ^ 27 := by norm_num
    have : L * 4096 + 4096 + 4096 * 2 < 2 ^ 39 := by
      have hL' : L < 2 ^ 27 := by omega
      nlinarith [hL']
    omega
  have hust_ceil : vaCeil ((L + 1) * PAGE_SIZE + USER_STACK_SIZE) = L + 3 := by
    unfold vaCeil PAGE_SIZE USER_STACK_SIZE
    omega
  have hF2none : ∀ v, L ≤ v → v < 2 ^ 27 - 1 → F2 v = none := by
    intro v hv1 hv2
    rw [hout2 v (fun s hs => by have := hsegL s hs; omega)]
    rw [Function.update_noteq (by rw [tramp_vpn_eq]; omega)]
  obtain ⟨pt3, T13, T23, hmap3, inv3, hroot3, hf31, hf32, habs3⟩ :=
    mapAreaVpns_abs 2 pt2 T12 T22 F2 (L + 1) (flagR ||| flagW ||| flagU)
      inv2 habs2
      (fun k hk => ⟨by omega, hF2none (L + 1 + k) (by omega) (by omega)⟩)
      (by decide) (by omega)
  -- step 4: the trap-context page
  have hF3 : ∀ v, ¬(L + 1 ≤ v ∧ v < L + 3) →
      updRange F2 (L + 1) 2 (some (flagR ||| flagW ||| flagU ||| 1)) v = F2 v := by
    intro v hv
    unfold updRange
    rw [if_neg (by omega)]
  obtain ⟨pt4, T14, T24, hmap4, inv4, hroot4, hf41, hf42, habs4⟩ :=
    mapAreaVpns_abs 1 pt3 T13 T23
      (updRange F2 (L + 1) 2 (some (flagR ||| flagW ||| flagU ||| 1)))
      (2 ^ 27 - 2) (flagR ||| flagW) inv3 habs3
      (fun k hk => by
        have hk0 : k = 0 := by omega
        subst hk0
        refine ⟨by omega, ?_⟩
        rw [show (2 : Nat) ^ 27 - 2 + 0 = 2 ^ 27 - 2 by omega]
        rw [hF3 _ (by omega)]
        exact hF2none _ (by omega) (by omega))
      (by decide) (by omega)
  -- assemble
  refine ⟨pt4, _, ?_, habs4, ?_, ?_, ?_⟩
  · unfold from_elf_model
    simp only [hmap1, hmap2, ← hLdef, husb_floor, hust_val, hust_ceil,
      show L + 3 - (L + 1) = 2 from by omega, tc_vpn_eq, tc_len_eq', hmap3, hmap4]
  · rw [show updRange (updRange F2 (L + 1) 2 (some (flagR ||| flagW ||| flagU ||| 1)))
        (2 ^ 27 - 2) 1 (some (flagR ||| flagW ||| 1)) L =
        updRange F2 (L + 1) 2 (some (flagR ||| flagW ||| flagU ||| 1)) L from by
      unfold updRange; rw [if_neg (by omega)]]
    rw [hF3 L (by omega)]
    exact hF2none L (le_refl _) (by omega)
  · intro k hk
    rw [show updRange (updRange F2 (L + 1) 2 (some (flagR ||| flagW ||| flagU ||| 1)))
        (2 ^ 27 - 2) 1 (some (flagR ||| flagW ||| 1)) (L + 1 + k) =
        updRange F2 (L + 1) 2 (some (flagR ||| flagW ||| flagU ||| 1)) (L + 1 + k) from by
      unfold updRange; rw [if_neg (by omega)]]
    unfold updRange
    rw [if_pos (by omega)]
  · unfold updRange
    rw [if_pos (by omega)]

/-- C9: for every ELF input whose LOAD segments stay below the trap-context
page, are pairwise disjoint and carry 4-bit rwx permissions (and with frame
budget available), `from_elf` leaves the page `max_end_vpn` — the first page
past the highest loaded segment — unmapped as a guard page, maps the
`USER_STACK_SIZE / PAGE_SIZE` pages above it with flags `R|W|U|V`, maps the
trap-context page `[TRAP_CONTEXT_ADDR, TRAMPOLINE_ADDR)` with flags `R|W|V`
(no `U` bit), and returns a user stack top equal to the guard page end plus
`USER_STACK_SIZE`. -/
theorem feVT_of_some {r s u : Nat} {segs : List (Nat × Nat × Nat)} {pt : PT}
    (h : from_elf_model r s segs = some (pt, u)) (v : Nat) :
    feVT r s segs v = vt pt.root_ppn pt.mem v := by
  unfold feVT
  rw [h]

theorem feStackTop_of_some {r s u : Nat} {segs : List (Nat × Nat × Nat)}
    {pt : PT} (h : from_elf_model r s segs = some (pt, u)) :
    feStackTop r s segs = some u := by
  unfold feStackTop
  rw [h]

theorem feFlagsAt_of_some {r s v e : Nat} {segs : List (Nat × Nat × Nat)}
    (h : feVT r s segs v = some e) :
    feFlagsAt r s segs v = some (pteFlags e) := by
  unfold feFlagsAt
  rw [h]

theorem C9_from_elf_layout (r s_tramp : Nat) (segs : List (Nat × Nat × Nat))
    (hsegL : ∀ s ∈ segs, segHi s ≤ segsMaxEnd 0 segs)
    (hdisj : List.Pairwise (fun s t => segHi s ≤ segLo t ∨ segHi t ≤ segLo s) segs)
    (hrwx : ∀ s ∈ segs, s.2.2 < 16)
    (hL : segsMaxEnd 0 segs + 3 < 2 ^ 27 - 2)
    (hfresh : r + 13 + 3 * segsPages segs ≤ 2 ^ 44) :
    feVT r s_tramp segs (segsMaxEnd 0 segs) = none ∧
    (∀ k, k < USER_STACK_SIZE / PAGE_SIZE →
      feFlagsAt r s_tramp segs (segsMaxEnd 0 segs + 1 + k) =
        some (flagR ||| flagW ||| flagU ||| 1)) ∧
    feFlagsAt r s_tramp segs (vaFloor (virtAddrFrom TRAP_CONTEXT_ADDR)) =
      some (flagR ||| flagW ||| 1) ∧
    (flagR ||| flagW ||| 1) &&& flagU = 0 ∧
    feStackTop r s_tramp segs =
      some ((segsMaxEnd 0 segs + 1) * PAGE_SIZE + USER_STACK_SIZE) := by
  obtain ⟨pt4, F4, hfe, habs, hg, hstk, htc⟩ :=
    from_elf_aux r s_tramp segs hsegL hdisj hrwx hL hfresh
  refine ⟨?_, ?_, ?_, by decide, ?_⟩
  · rw [feVT_of_some hfe]
    exact (habs _ (by omega)).1 hg
  · intro k hk
    have hk2 : k < 2 := by
      unfold USER_STACK_SIZE PAGE_SIZE at hk
      omega
    obtain ⟨p, hp⟩ := (habs (segsMaxEnd 0 segs + 1 + k) (by omega)).2 _ (hstk k hk2)
    rw [feFlagsAt_of_some (by rw [feVT_of_some hfe]; exact hp)]
    rw [pteFlags_mkPTE _ _ (by decide)]
  · rw [tc_vpn_eq]
    obtain ⟨p, hp⟩ := (habs (2 ^ 27 - 2) (by omega)).2 _ htc
    rw [feFlagsAt_of_some (by rw [feVT_of_some hfe]; exact hp)]
    rw [pteFlags_mkPTE _ _ (by decide)]
  · exact feStackTop_of_some hfe

theorem C9_witness :
    feVT 0 0 [(4096, 4096 * 3, 7)] (segsMaxEnd 0 [(4096, 4096 * 3, 7)]) = none ∧
    feStackTop 0 0 [(4096, 4096 * 3, 7)] =
      some ((segsMaxEnd 0 [(4096, 4096 * 3, 7)] + 1) * PAGE_SIZE +
        USER_STACK_SIZE) := by
  obtain ⟨h1, _, _, _, h5⟩ :=
    C9_from_elf_layout 0 0 [(4096, 4096 * 3, 7)]
      (by intro s hs; simp at hs; subst hs; decide)
      (by simp)
      (by intro s hs; simp at hs; subst hs; decide)
      (by decide) (by decide)
  exact ⟨h1, h5⟩
